import Mathlib

/-!
Verification development for the row-wise iterator of a versioned,
document-structured key-value store (DocDB).

The repository sources available here contain the iterator test suite
(docrowwiseiterator-test.cc), including the transaction-status-manager mock,
but not the iterator implementation itself.  The iterator, its visibility
filter, intent resolver, document walker, row assembler and facade are
therefore modelled from the specification (sections 3 to 4.7), with one
deliberate deviation where the test suite contradicts the specification
text: the tests assert that reads succeed when the transaction-status
oracle reports PENDING (the intents of the pending transaction are treated
as invisible), while section 4.3 of the specification says PENDING should
produce a TryAgain error.  The model follows the tests, which are the
authoritative repository code.

Design of the embedding:
  - document keys are the ordered lists of primary-key values; the
    specification states that the byte encoding of a document key is
    order-preserving, so the byte order of encoded keys coincides with the
    lexicographic order on the decoded value lists used here;
  - hybrid timestamps are natural numbers (microseconds); a full version is
    the pair (timestamp, write index), ordered lexicographically;
  - the store is a finite list of entries (regular, strong intent or weak
    intent); the iterator pipeline first resolves every entry against the
    read time and the transaction-status oracle (dropping invisible entries
    and applying TTL expiry), then walks the resolved entries grouped by
    document key in ascending key order, computing the visible cell values,
    the document tombstone threshold and the row emission decision, and
    finally assembles the projected rows.
-/

namespace DocDB

/-- Primitive value stored in a cell or used as a primary-key component. -/
inductive PrimVal where
  | vstr (s : String)
  | vint (n : Int)
deriving DecidableEq

/-- Byte-level strict order on characters, via the numeric code point. -/
def charLtb (a b : Char) : Bool := decide (a.toNat < b.toNat)

/-- Lexicographic strict order on character lists. -/
def chLtb : List Char → List Char → Bool
  | [], [] => false
  | [], _ :: _ => true
  | _ :: _, [] => false
  | a :: as, b :: bs => charLtb a b || (decide (a = b) && chLtb as bs)

/-- Strict order on strings, via their character data. -/
def strLtb (s t : String) : Bool := chLtb s.data t.data

/-- Strict order on primitive values: strings sort before integers
(the byte encoding gives each type a distinct tag), strings by byte order,
integers by numeric order. -/
def pvLtb : PrimVal → PrimVal → Bool
  | .vstr s, .vstr t => strLtb s t
  | .vstr _, .vint _ => true
  | .vint _, .vstr _ => false
  | .vint m, .vint n => decide (m < n)

/-- Document key: the decoded primary-key component list.  The specification
states the byte encoding of document keys is order-preserving, so byte order
of encoded keys equals this lexicographic order. -/
abbrev DocKey := List PrimVal

/-- Byte order on document keys (lexicographic on the components). -/
def keyLtb : List PrimVal → List PrimVal → Bool
  | [], [] => false
  | [], _ :: _ => true
  | _ :: _, [] => false
  | a :: as, b :: bs => pvLtb a b || (decide (a = b) && keyLtb as bs)

/-- Full MVCC version: hybrid timestamp (microseconds) plus write index. -/
structure Version where
  ts : Nat
  w : Nat
deriving DecidableEq

/-- Non-strict order on versions (lexicographic). -/
def vleb (a b : Version) : Bool := decide (a.ts < b.ts ∨ (a.ts = b.ts ∧ a.w ≤ b.w))

/-- Strict order on versions (lexicographic). -/
def vltb (a b : Version) : Bool := decide (a.ts < b.ts ∨ (a.ts = b.ts ∧ a.w < b.w))

/-- Payload of a stored value: a deletion marker (tombstone) or a primitive. -/
inductive Payload where
  | tombstone
  | prim (v : PrimVal)
deriving DecidableEq

/-- Kind of a stored entry: a regular committed write, or a provisional
(intent) write of the given transaction, of strong or weak strength. -/
inductive EKind where
  | regular
  | strong (txn : Nat)
  | weak (txn : Nat)
deriving DecidableEq

/-- Stored entry, the unit yielded by the underlying ordered store
(specification section 3): document key, sub-key path (none denotes the
document root, used by document-level tombstones; a column cell is the
single-component path with that column id), version, kind, payload, and
the optional TTL duration in microseconds. -/
structure Entry where
  key : DocKey
  path : Option Nat
  ver : Version
  kind : EKind
  payload : Payload
  ttl : Option Nat
deriving DecidableEq

/-- Resolved entry: what remains of a stored entry after intent resolution,
read-time filtering and TTL expiry have been applied. -/
structure VEntry where
  key : DocKey
  path : Option Nat
  ver : Version
  payload : Payload
deriving DecidableEq

/-- Answer of the transaction-status oracle. -/
inductive TxnStatus where
  | committed (c : Nat)
  | pending
  | aborted
  | unknown
deriving DecidableEq

/-- Transaction-status oracle: transaction id and read timestamp to status. -/
abbrev Oracle := Nat → Nat → TxnStatus

/-- Errors surfaced by the iterator in this model.  TryAgain corresponds to
a provisional write whose transaction status cannot be determined. -/
inductive RErr where
  | tryAgain
deriving DecidableEq

/-- Lookup of a transaction id in the commit-time table of the mock. -/
def commitLookup (txn : Nat) : List (Nat × Nat) → Option Nat
  | [] => none
  | (t, c) :: rest => if txn = t then some c else commitLookup txn rest

/-- Transaction-status oracle of the test suite, translated from
TransactionStatusManagerMock::RequestStatusAt in
src/yb/docdb/docrowwiseiterator-test.cc: an unknown transaction id yields a
TryAgain (modelled as the unknown status); a known transaction is reported
committed at its commit time when the read time has reached that commit
time, and pending otherwise. -/
def mockOracle (commits : List (Nat × Nat)) : Oracle := fun txn readTs =>
  match commitLookup txn commits with
  | none => .unknown
  | some c => if c ≤ readTs then .committed c else .pending

/-- Modelled from the spec: TTL expiry rule of the visibility filter
(sections 3 and 4.4, implementation not under src/).  A primitive value at
version T carrying TTL d is expired at read time R when R - T is at least
d, and an expired value behaves exactly like a tombstone written at T. -/
def effPayload (R : Nat) (v : Version) (p : Payload) (ttl : Option Nat) : Payload :=
  match p, ttl with
  | .prim x, some d => if v.ts + d ≤ R then .tombstone else .prim x
  | p2, _ => p2

/-- Modelled from the spec: the intent resolver and the per-entry part of
the visibility filter (sections 4.3 and 4.4, implementation not under
src/).  A regular entry survives when its timestamp is at most the read
time, with TTL expiry applied to its payload.  Weak intents are
informational and never carry data.  With a transactional read context a
strong intent is resolved through the oracle: committed at c with c at most
R makes it a regular write at effective version c; committed later than R,
aborted, or pending make it invisible; an undeterminable status is a
TryAgain error.  Without a transactional read context intents are skipped
unconditionally.  The pending case follows the behavior asserted by
DocRowwiseIteratorResolveWriteIntents (reads at times 2000 and 5000 succeed
while the mock reports PENDING), not the TryAgain wording of section 4.3. -/
def resolveEntry (txnCtx : Bool) (oracle : Oracle) (R : Nat) (e : Entry) :
    Except RErr (Option VEntry) :=
  match e.kind with
  | .regular =>
    .ok (if e.ver.ts ≤ R then some ⟨e.key, e.path, e.ver, effPayload R e.ver e.payload e.ttl⟩
         else none)
  | .weak _ => .ok none
  | .strong txn =>
    if txnCtx then
      match oracle txn R with
      | .committed c =>
        .ok (if c ≤ R then some ⟨e.key, e.path, ⟨c, e.ver.w⟩, e.payload⟩ else none)
      | .pending => .ok none
      | .aborted => .ok none
      | .unknown => .error .tryAgain
    else .ok none

/-- Modelled from the spec: resolution of the whole scanned range (the
document walker feeds every entry through the resolver; implementation not
under src/).  The first TryAgain error is propagated; invisible entries are
dropped. -/
def resolveStore (txnCtx : Bool) (oracle : Oracle) (R : Nat) : List Entry →
    Except RErr (List VEntry)
  | [] => .ok []
  | e :: es =>
    match resolveEntry txnCtx oracle R e with
    | .error er => .error er
    | .ok none => resolveStore txnCtx oracle R es
    | .ok (some v) =>
      match resolveStore txnCtx oracle R es with
      | .error er => .error er
      | .ok vs => .ok (v :: vs)

/-- Insertion of a key into a strictly sorted list, keeping it sorted and
without duplicates. -/
def insortBy {α : Type} [DecidableEq α] (lt : α → α → Bool) (k : α) : List α → List α
  | [] => [k]
  | x :: xs =>
    if lt k x then k :: x :: xs
    else if k = x then x :: xs
    else x :: insortBy lt k xs

/-- Strict order on column ids. -/
def natLtb (a b : Nat) : Bool := decide (a < b)

/-- Modelled from the spec: the document keys visited by the document
walker (section 4.5, implementation not under src/), in ascending byte
order and without duplicates. -/
def docKeysOf (rs : List VEntry) : List DocKey :=
  rs.foldr (fun e acc => insortBy keyLtb e.key acc) []

/-- Column ids present among the resolved entries of one document, in
ascending order and without duplicates. -/
def colsOf (rs : List VEntry) (d : DocKey) : List Nat :=
  rs.foldr (fun e acc =>
    match e.path with
    | some c => if e.key = d then insortBy natLtb c acc else acc
    | none => acc) []

/-- Modelled from the spec: the document tombstone threshold (section 4.5
step 1, implementation not under src/): the largest version of a resolved
document-level tombstone of this document, none when there is no such
tombstone. -/
def docDts (rs : List VEntry) (d : DocKey) : Option Version :=
  rs.foldr (fun e acc =>
    if e.key = d ∧ e.path = none ∧ e.payload = .tombstone then
      match acc with
      | none => some e.ver
      | some dd => some (if vltb dd e.ver then e.ver else dd)
    else acc) none

/-- Resolved entries of one cell, in store order. -/
def cellEntries (rs : List VEntry) (d : DocKey) (c : Nat) : List VEntry :=
  rs.filter (fun e => decide (e.key = d) && decide (e.path = some c))

/-- Element of a list with the largest version under the given projection,
none for the empty list. -/
def latestBy {α : Type} (f : α → Version) : List α → Option α
  | [] => none
  | e :: es =>
    match latestBy f es with
    | none => some e
    | some m => if vltb (f m) (f e) then some e else some m

/-- Whether a version is at or below an optional tombstone threshold. -/
def underThreshold (dts : Option Version) (v : Version) : Bool :=
  match dts with
  | none => false
  | some dd => vleb v dd

/-- Modelled from the spec: the visibility filter for one cell (section
4.4, implementation not under src/).  Among the resolved versions of the
cell, the one with the largest version decides: if it is at or below the
document tombstone threshold, or is a tombstone (a TTL-expired value has
already been turned into a tombstone during resolution), the cell is NULL;
otherwise the cell holds its primitive value. -/
def cellVal (dts : Option Version) (ces : List VEntry) : Option PrimVal :=
  match latestBy (fun e => e.ver) ces with
  | none => none
  | some m =>
    if underThreshold dts m.ver then none
    else
      match m.payload with
      | .tombstone => none
      | .prim x => some x

/-- Table schema: the column ids of the primary-key columns, in key order.
A document key decodes positionally into these columns. -/
structure Schema where
  keyIds : List Nat
deriving DecidableEq

/-- Index of a column id in a list, none when absent. -/
def idxOf (c : Nat) : List Nat → Option Nat
  | [] => none
  | x :: xs => if c = x then some 0 else (idxOf c xs).map (· + 1)

/-- Positional access into the decoded primary-key values. -/
def nthPV : List PrimVal → Nat → Option PrimVal
  | [], _ => none
  | x :: _, 0 => some x
  | _ :: xs, n + 1 => nthPV xs n

/-- Lookup of a column id in a computed cell list; an absent column reads
as NULL, exactly like a stored NULL. -/
def cellsGet (c : Nat) : List (Nat × Option PrimVal) → Option PrimVal
  | [] => none
  | (a, v) :: rest => if c = a then v else cellsGet c rest

/-- Whether the projection contains at least one non-key column. -/
def hasNonKeyB (schema : Schema) (proj : List Nat) : Bool :=
  proj.any (fun c => (idxOf c schema.keyIds).isNone)

/-- Modelled from the spec: the row assembler (section 4.6, implementation
not under src/).  Each projected column is materialized: a primary-key
column is decoded from the document key, any other column is looked up in
the computed cell list, reading NULL when absent or stored NULL. -/
def assembleRow (schema : Schema) (proj : List Nat) (d : DocKey)
    (cells : List (Nat × Option PrimVal)) : List (Nat × Option PrimVal) :=
  proj.map (fun c =>
    (c, match idxOf c schema.keyIds with
        | some i => nthPV d i
        | none => cellsGet c cells))

/-- Logical row produced by the iterator: the document key it came from and
the projected column values. -/
structure Row where
  key : DocKey
  vals : List (Nat × Option PrimVal)
deriving DecidableEq

/-- Cell values of one document, keyed by column id. -/
def docCells (rs : List VEntry) (d : DocKey) : List (Nat × Option PrimVal) :=
  (colsOf rs d).map (fun c => (c, cellVal (docDts rs d) (cellEntries rs d c)))

/-- Modelled from the spec: the row emission rule (section 4.5 step 5,
implementation not under src/).  A document is skipped exactly when all its
cell values are NULL, the document carries a visible document-level
tombstone, and the projection contains a non-key column. -/
def skipDocB (schema : Schema) (proj : List Nat) (rs : List VEntry) (d : DocKey) : Bool :=
  (docCells rs d).all (fun p => p.2.isNone) && (docDts rs d).isSome &&
    hasNonKeyB schema proj

/-- Row produced for one document, none when the document is skipped. -/
def docRowPure (schema : Schema) (proj : List Nat) (rs : List VEntry) (d : DocKey) :
    Option Row :=
  if skipDocB schema proj rs d then none
  else some ⟨d, assembleRow schema proj d (docCells rs d)⟩

/-- Modelled from the spec: the document walker and row assembler over the
resolved entries (sections 4.5 and 4.6, implementation not under src/):
one optional row per document key, in ascending key order. -/
def buildRows (schema : Schema) (proj : List Nat) (rs : List VEntry) : List Row :=
  (docKeysOf rs).filterMap (fun d => docRowPure schema proj rs d)

/-- Modelled from the spec: the full scan of the iterator (sections 4.3 to
4.7, implementation not under src/): resolve every stored entry at the read
time, then walk the documents and assemble the projected rows.  This is the
sequence of rows a caller obtains from Init, HasNext and NextRow, or the
TryAgain error those calls surface. -/
def iterate (txnCtx : Bool) (oracle : Oracle) (R : Nat) (schema : Schema)
    (proj : List Nat) (store : List Entry) : Except RErr (List Row) :=
  (resolveStore txnCtx oracle R store).map (buildRows schema proj)

/-! Definitions for the iterator facade (Init, HasNext, NextRow). -/

/-- Context fixed for the lifetime of one iterator: schema, projection and
the resolved entries of the pinned snapshot. -/
structure WalkCtx where
  schema : Schema
  proj : List Nat
  rs : List VEntry
deriving DecidableEq

/-- Advance of the document walker to the next emittable row: the first
visited document that produces a row, together with the documents still to
visit after it. -/
def stepWalk (ctx : WalkCtx) : List DocKey → Option (Row × List DocKey)
  | [] => none
  | d :: ds =>
    match docRowPure ctx.schema ctx.proj ctx.rs d with
    | some r => some (r, ds)
    | none => stepWalk ctx ds

/-- Modelled from the spec: the iterator facade state (section 4.7,
implementation not under src/): the documents not yet visited, the
pre-materialized next row, and the exhaustion flag. -/
structure Facade where
  docs : List DocKey
  cache : Option Row
  done : Bool
deriving DecidableEq

/-- Modelled from the spec: the state directly after Init (section 4.7,
implementation not under src/). -/
def facadeInit (ctx : WalkCtx) : Facade := ⟨docKeysOf ctx.rs, none, false⟩

/-- Modelled from the spec: HasNext (section 4.7, implementation not under
src/).  A cached row answers immediately; exhaustion answers false; lacking
both, the walker materializes the next emittable row and caches it, or
records exhaustion. -/
def hasNext (ctx : WalkCtx) (f : Facade) : Bool × Facade :=
  match f.cache with
  | some _ => (true, f)
  | none =>
    if f.done then (false, f)
    else
      match stepWalk ctx f.docs with
      | some (r, ds) => (true, ⟨ds, some r, false⟩)
      | none => (false, ⟨[], none, true⟩)

/-- Modelled from the spec: NextRow (section 4.7, implementation not under
src/): behaves as if preceded by HasNext, then consumes the cached row. -/
def nextRow (ctx : WalkCtx) (f : Facade) : Option Row × Facade :=
  match hasNext ctx f with
  | (true, f2) => (f2.cache, ⟨f2.docs, none, f2.done⟩)
  | (false, f2) => (none, f2)

/-- Result of n + 1 consecutive HasNext calls from a state. -/
def hasNextN (ctx : WalkCtx) : Nat → Facade → Bool × Facade
  | 0, f => hasNext ctx f
  | n + 1, f => hasNextN ctx n (hasNext ctx f).2

/-- Rows produced by repeated NextRow calls from a state, with fuel. -/
def rowSeq (ctx : WalkCtx) : Nat → Facade → List Row
  | 0, _ => []
  | fuel + 1, f =>
    match nextRow ctx f with
    | (some r, f2) => r :: rowSeq ctx fuel f2
    | (none, _) => []

/-! Definitions supporting the claim statements. -/

/-- Regular-write form of an intent committed at time c: the same key,
path and payload at effective version (c, w). -/
def regularized (e : Entry) (c : Nat) : Entry :=
  ⟨e.key, e.path, ⟨c, e.ver.w⟩, .regular, e.payload, none⟩

/-- Resolution outcome of an intent of transaction t as a store rewrite:
committed at c with c at most R becomes a regular write at version c; any
other determinable status removes the entry. -/
def intentRewrite (oracle : Oracle) (R : Nat) (t : Nat) (e : Entry) : Option Entry :=
  match oracle t R with
  | .committed c => if c ≤ R then some (regularized e c) else none
  | _ => none

/-- TTL rewrite of a regular entry at read time R: an expired value becomes
a tombstone at the same version, an unexpired value becomes the same plain
value without TTL. -/
def ttlRewrite (R : Nat) (e : Entry) : Entry :=
  match e.payload, e.ttl with
  | .prim x, some dl =>
    if e.ver.ts + dl ≤ R then ⟨e.key, e.path, e.ver, e.kind, .tombstone, none⟩
    else ⟨e.key, e.path, e.ver, e.kind, .prim x, none⟩
  | _, _ => e

/-- Whether an entry is an intent of a transaction the oracle reports as
pending at read time R. -/
def pendingIntentB (oracle : Oracle) (R : Nat) (e : Entry) : Bool :=
  match e.kind with
  | .regular => false
  | .strong t => decide (oracle t R = .pending)
  | .weak t => decide (oracle t R = .pending)

/-- Whether an entry is a strong intent of a transaction whose status the
oracle cannot determine at read time R. -/
def unknownIntentB (oracle : Oracle) (R : Nat) (e : Entry) : Bool :=
  match e.kind with
  | .strong t => decide (oracle t R = .unknown)
  | _ => false

/-- Whether an entry payload counts as a deletion at read time R: a
tombstone, or a TTL-bearing value already expired at R. -/
def deadAt (R : Nat) (e : Entry) : Bool :=
  match e.payload, e.ttl with
  | .tombstone, _ => true
  | .prim _, some dl => decide (e.ver.ts + dl ≤ R)
  | .prim _, none => false

/-- Value of a payload, none for a tombstone. -/
def payloadValue : Payload → Option PrimVal
  | .tombstone => none
  | .prim x => some x

/-- Claim-side statement of the version-selection rule, following the
wording of P1 and C1: among the versions of one cell, a read at time R
returns the value of the version with the largest version at most R whose
payload is neither a tombstone nor TTL-expired at R and which is not
shadowed by a visible deletion (a tombstone, or an expired value, which the
specification makes behave exactly like a tombstone) at a larger version;
NULL when no such version exists.  Defined over raw entries, independently
of the iterator pipeline, to be compared with it. -/
def specCellValue (R : Nat) (es : List Entry) : Option PrimVal :=
  let vis := es.filter (fun e => decide (e.ver.ts ≤ R))
  let clean := vis.filter (fun e => !deadAt R e &&
    !(vis.any (fun e2 => deadAt R e2 && vltb e.ver e2.ver)))
  match latestBy (fun e => e.ver) clean with
  | none => none
  | some m => payloadValue m.payload

/-- Restriction of an assembled row to a smaller projection, by column
lookup. -/
def restrictRow (proj : List Nat) (r : Row) : Row :=
  ⟨r.key, proj.map (fun c => (c, cellsGet c r.vals))⟩

/-- Version injectivity of resolved entries at one cell: two resolved
entries of the same document and path with the same version are equal.  The
specification ordering invariant makes version ties at a cell impossible. -/
def versionInjective (rs : List VEntry) : Prop :=
  ∀ e1 ∈ rs, ∀ e2 ∈ rs, e1.key = e2.key → e1.path = e2.path → e1.ver = e2.ver → e1 = e2

/-! Concrete data of the test suite (docrowwiseiterator-test.cc), used to
validate the model against the asserted outputs and as witness inputs. -/

/-- Encoded document key of the test row1 (a STRING and an INT64 key column). -/
def dk1 : DocKey := [.vstr "row1", .vint 11111]

/-- Encoded document key of the test row2. -/
def dk2 : DocKey := [.vstr "row2", .vint 22222]

/-- Schema of the iterator tests: key columns a (10) and b (20); the non-key
columns are c (30), d (40), e (50). -/
def schemaT : Schema := ⟨[10, 20]⟩

/-- Projection on the non-key columns c, d, e used by most tests. -/
def projCDE : List Nat := [30, 40, 50]

/-- Regular write of a primitive value at a column cell. -/
def rcell (k : DocKey) (c t w : Nat) (p : Payload) : Entry :=
  ⟨k, some c, ⟨t, w⟩, .regular, p, none⟩

/-- Regular write with a TTL duration. -/
def rcellTtl (k : DocKey) (c t w ttl : Nat) (p : Payload) : Entry :=
  ⟨k, some c, ⟨t, w⟩, .regular, p, some ttl⟩

/-- Document-level tombstone. -/
def rdoc (k : DocKey) (t w : Nat) : Entry := ⟨k, none, ⟨t, w⟩, .regular, .tombstone, none⟩

/-- Strong intent write at a column cell. -/
def icell (k : DocKey) (c t w txn : Nat) (p : Payload) : Entry :=
  ⟨k, some c, ⟨t, w⟩, .strong txn, p, none⟩

/-- Strong intent document-level tombstone. -/
def idoc (k : DocKey) (t w txn : Nat) : Entry := ⟨k, none, ⟨t, w⟩, .strong txn, .tombstone, none⟩

/-- Weak intent marker at the document root. -/
def iweak (k : DocKey) (t w txn : Nat) : Entry := ⟨k, none, ⟨t, w⟩, .weak txn, .tombstone, none⟩

/-- Resolved column-cell entry, for statements at the resolved level. -/
def ve (k : DocKey) (c t w : Nat) (p : Payload) : VEntry := ⟨k, some c, ⟨t, w⟩, p⟩

/-- Resolved document-level tombstone, for statements at the resolved level. -/
def vdoc (k : DocKey) (t w : Nat) : VEntry := ⟨k, none, ⟨t, w⟩, .tombstone⟩

/-- Single-cell store exercising version selection: a value at 1000, a
column tombstone at 2000, and a value at 2500, all at column 30 of row1. -/
def storeC1 : List Entry :=
  [rcell dk1 30 1000 0 (.prim (.vstr "a")),
   ⟨dk1, some 30, ⟨2000, 0⟩, .regular, .tombstone, none⟩,
   rcell dk1 30 2500 0 (.prim (.vstr "b"))]

/-- Resolved store of the test DocRowwiseIteratorTestRowDeletes at read
time 2800: a document tombstone on row1 at 2500 hides the writes at 1000,
the write at 2800 stays visible. -/
def rsC2 : List VEntry :=
  [vdoc dk1 2500 0,
   ve dk1 30 1000 0 (.prim (.vstr "row1_c")),
   ve dk1 40 1000 1 (.prim (.vint 10000)),
   ve dk1 50 2800 0 (.prim (.vstr "row1_e")),
   ve dk2 40 2800 1 (.prim (.vint 20000))]

/-- Store with one TTL-bearing write, from DocRowwiseIteratorMultipleDeletes:
row1 column e written at 2800 with TTL 1000 microseconds. -/
def storeC3 : List Entry := [rcellTtl dk1 50 2800 0 1000 (.prim (.vstr "row1_e"))]

/-- Store with a regular write overlaid by a strong intent of transaction 7. -/
def storeC4 : List Entry :=
  [rcell dk1 30 1000 0 (.prim (.vstr "old")),
   icell dk1 30 500 0 7 (.prim (.vstr "new"))]

/-- Store with a regular write and a strong intent of transaction 7 at
provisional time 4000. -/
def storeC5 : List Entry :=
  [rcell dk1 30 1000 0 (.prim (.vstr "old")),
   icell dk1 30 4000 0 7 (.prim (.vstr "new"))]

/-- Store whose only entry is a strong intent of a transaction the mock
does not know (transaction 9). -/
def storeC5u : List Entry := [icell dk1 30 500 0 9 (.prim (.vstr "x"))]

/-- Store with a tombstoned document whose only column write is hidden:
document tombstone at 2, column 30 write at 1, read at 3. -/
def storeC8 : List Entry :=
  [rdoc dk1 2 0,
   rcell dk1 30 1 0 (.prim (.vstr "x"))]

/-- Tombstoned document with a hidden column write and a later visible
write at column 50. -/
def storeC8c : List Entry :=
  [rdoc dk1 2 0,
   rcell dk1 30 1 0 (.prim (.vstr "x")),
   rcell dk1 50 3 0 (.prim (.vstr "y"))]

/-- The same store without the column 50 write. -/
def storeC8d : List Entry :=
  [rdoc dk1 2 0,
   rcell dk1 30 1 0 (.prim (.vstr "x"))]

/-- Projection on the non-key columns c and d. -/
def projCD : List Nat := [30, 40]

/-- Key-only projection on columns a and b. -/
def projAB : List Nat := [10, 20]

/-- Projection on the key columns a, b and the non-key column c. -/
def projABC : List Nat := [10, 20, 30]

/-- Resolved store where row1 carries a visible non-NULL column write next
to a document tombstone. -/
def rsC9A : List VEntry :=
  [vdoc dk1 2500 0,
   ve dk1 50 2800 0 (.prim (.vstr "row1_e"))]

/-- Resolved store where the only column write of row1 is hidden by the
document tombstone. -/
def rsC9B : List VEntry :=
  [vdoc dk1 2500 0,
   ve dk1 30 1000 0 (.prim (.vstr "row1_c"))]

/-- Store written by the test DocRowwiseIteratorTest. -/
def storeOne : List Entry :=
  [rcell dk1 30 1000 0 (.prim (.vstr "row1_c")),
   rcell dk1 40 1000 0 (.prim (.vint 10000)),
   rcell dk1 50 1000 0 (.prim (.vstr "row1_e")),
   rcell dk2 40 2000 0 (.prim (.vint 20000)),
   ⟨dk2, some 40, ⟨2500, 0⟩, .regular, .tombstone, none⟩,
   rcell dk2 40 3000 0 (.prim (.vint 30000)),
   rcell dk2 50 2000 0 (.prim (.vstr "row2_e")),
   rcell dk2 50 4000 0 (.prim (.vstr "row2_e_prime"))]

/-- Store written by the test DocRowwiseIteratorResolveWriteIntents:
the regular writes of DocRowwiseIteratorTest overlaid with the intents of
transaction 1 (provisional time 500, committed at 3500) and transaction 2
(provisional time 4000, committed at 6000). -/
def storeFive : List Entry :=
  [iweak dk1 500 1 1,
   idoc dk1 4000 0 2,
   icell dk1 30 500 0 1 (.prim (.vstr "row1_c_t1")),
   icell dk1 40 500 0 1 (.prim (.vint 40000)),
   icell dk1 50 500 0 1 (.prim (.vstr "row1_e_t1")),
   iweak dk2 4000 1 2,
   iweak dk2 500 1 1,
   icell dk2 40 500 0 1 (.prim (.vint 42000)),
   icell dk2 50 4000 0 2 (.prim (.vstr "row2_e_t2")),
   icell dk2 50 500 0 1 (.prim (.vstr "row2_e_t1"))] ++ storeOne

/-- Commit times of the two test transactions in the mock. -/
def commitsFive : List (Nat × Nat) := [(1, 3500), (2, 6000)]

/-- Projection on the non-key columns c and e. -/
def projCE : List Nat := [30, 50]

/-- Store written by the test DocRowwiseIteratorMultipleDeletes: document
tombstones on both rows at 2500, older and newer column writes, and two
TTL-bearing writes at 2800 (1 millisecond on row1, 3 milliseconds on
row2). -/
def storeSix : List Entry :=
  [rdoc dk1 2500 0,
   rcell dk1 30 1000 0 (.prim (.vstr "row1_c")),
   rcell dk1 40 1000 1 (.prim (.vint 10000)),
   rcellTtl dk1 50 2800 0 1000 (.prim (.vstr "row1_e")),
   rdoc dk2 2500 1,
   ⟨dk2, some 30, ⟨2800, 1⟩, .regular, .tombstone, none⟩,
   rcell dk2 40 2800 2 (.prim (.vint 20000)),
   rcellTtl dk2 50 2800 3 3000 (.prim (.vstr "row2_e"))]

/-- Store written by the test DocRowwiseIteratorKeyProjection. -/
def storeKP : List Entry :=
  [rcell dk1 40 1000 0 (.prim (.vint 10000)),
   rcell dk1 50 1000 1 (.prim (.vstr "row1_e"))]

theorem charLtb_trans {a b c : Char} (h1 : charLtb a b = true) (h2 : charLtb b c = true) :
    charLtb a c = true := by
  simp only [charLtb, decide_eq_true_iff] at *
  omega

theorem charLtb_irrefl (a : Char) : charLtb a a = false := by
  simp [charLtb]

theorem charLtb_total {a b : Char} (hne : a ≠ b) : charLtb a b = true ∨ charLtb b a = true := by
  simp only [charLtb, decide_eq_true_iff]
  rcases Nat.lt_trichotomy a.toNat b.toNat with h | h | h
  · exact Or.inl h
  · exact absurd (Char.ext (UInt32.ext (by simpa [Char.toNat] using h))) hne
  · exact Or.inr h

theorem chLtb_trans : ∀ {a b c : List Char}, chLtb a b = true → chLtb b c = true →
    chLtb a c = true
  | [], [], _, h1, _ => by simp [chLtb] at h1
  | [], _ :: _, [], _, h2 => by simp [chLtb] at h2
  | [], _ :: _, _ :: _, _, _ => by simp [chLtb]
  | _ :: _, [], _, h1, _ => by simp [chLtb] at h1
  | _ :: _, _ :: _, [], _, h2 => by simp [chLtb] at h2
  | a :: as, b :: bs, c :: cs, h1, h2 => by
    simp only [chLtb, Bool.or_eq_true, Bool.and_eq_true, decide_eq_true_iff] at *
    rcases h1 with h1 | ⟨rfl, h1⟩
    · rcases h2 with h2 | ⟨rfl, h2⟩
      · exact Or.inl (charLtb_trans h1 h2)
      · exact Or.inl h1
    · rcases h2 with h2 | ⟨rfl, h2⟩
      · exact Or.inl h2
      · exact Or.inr ⟨rfl, chLtb_trans h1 h2⟩

theorem chLtb_irrefl : ∀ (a : List Char), chLtb a a = false
  | [] => by simp [chLtb]
  | a :: as => by
    simp only [chLtb, Bool.or_eq_false_iff, Bool.and_eq_false_iff]
    exact ⟨charLtb_irrefl a, Or.inr (chLtb_irrefl as)⟩

theorem chLtb_total : ∀ {a b : List Char}, a ≠ b → chLtb a b = true ∨ chLtb b a = true
  | [], [], hne => absurd rfl hne
  | [], _ :: _, _ => by simp [chLtb]
  | _ :: _, [], _ => by simp [chLtb]
  | a :: as, b :: bs, hne => by
    simp only [chLtb, Bool.or_eq_true, Bool.and_eq_true, decide_eq_true_iff]
    by_cases hab : a = b
    · subst hab
      have hne2 : as ≠ bs := fun h => hne (by rw [h])
      rcases chLtb_total hne2 with h | h
      · exact Or.inl (Or.inr ⟨rfl, h⟩)
      · exact Or.inr (Or.inr ⟨rfl, h⟩)
    · rcases charLtb_total hab with h | h
      · exact Or.inl (Or.inl h)
      · exact Or.inr (Or.inl h)

theorem pvLtb_trans {a b c : PrimVal} (h1 : pvLtb a b = true) (h2 : pvLtb b c = true) :
    pvLtb a c = true := by
  cases a <;> cases b <;> cases c <;>
    simp only [pvLtb, strLtb, decide_eq_true_iff, Bool.false_eq_true] at * <;>
    first
      | omega
      | exact chLtb_trans h1 h2
      | trivial

theorem pvLtb_irrefl (a : PrimVal) : pvLtb a a = false := by
  cases a <;> simp [pvLtb, strLtb, chLtb_irrefl]

theorem pvLtb_total {a b : PrimVal} (hne : a ≠ b) : pvLtb a b = true ∨ pvLtb b a = true := by
  cases a <;> cases b <;> simp only [pvLtb, strLtb, decide_eq_true_iff]
  · rename_i s t
    have hst : s.data ≠ t.data := by
      intro h
      exact hne (by congr 1; exact congrArg String.mk h)
    exact chLtb_total hst
  · exact Or.inl trivial
  · exact Or.inr trivial
  · rename_i m n
    have : m ≠ n := fun h => hne (by rw [h])
    omega

theorem keyLtb_trans : ∀ {a b c : List PrimVal}, keyLtb a b = true → keyLtb b c = true →
    keyLtb a c = true
  | [], [], _, h1, _ => by simp [keyLtb] at h1
  | [], _ :: _, [], _, h2 => by simp [keyLtb] at h2
  | [], _ :: _, _ :: _, _, _ => by simp [keyLtb]
  | _ :: _, [], _, h1, _ => by simp [keyLtb] at h1
  | _ :: _, _ :: _, [], _, h2 => by simp [keyLtb] at h2
  | a :: as, b :: bs, c :: cs, h1, h2 => by
    simp only [keyLtb, Bool.or_eq_true, Bool.and_eq_true, decide_eq_true_iff] at *
    rcases h1 with h1 | ⟨rfl, h1⟩
    · rcases h2 with h2 | ⟨rfl, h2⟩
      · exact Or.inl (pvLtb_trans h1 h2)
      · exact Or.inl h1
    · rcases h2 with h2 | ⟨rfl, h2⟩
      · exact Or.inl h2
      · exact Or.inr ⟨rfl, keyLtb_trans h1 h2⟩

theorem keyLtb_irrefl : ∀ (a : List PrimVal), keyLtb a a = false
  | [] => by simp [keyLtb]
  | a :: as => by
    simp only [keyLtb, Bool.or_eq_false_iff, Bool.and_eq_false_iff]
    exact ⟨pvLtb_irrefl a, Or.inr (keyLtb_irrefl as)⟩

theorem keyLtb_total : ∀ {a b : List PrimVal}, a ≠ b → keyLtb a b = true ∨ keyLtb b a = true
  | [], [], hne => absurd rfl hne
  | [], _ :: _, _ => by simp [keyLtb]
  | _ :: _, [], _ => by simp [keyLtb]
  | a :: as, b :: bs, hne => by
    simp only [keyLtb, Bool.or_eq_true, Bool.and_eq_true, decide_eq_true_iff]
    by_cases hab : a = b
    · subst hab
      have hne2 : as ≠ bs := fun h => hne (by rw [h])
      rcases keyLtb_total hne2 with h | h
      · exact Or.inl (Or.inr ⟨rfl, h⟩)
      · exact Or.inr (Or.inr ⟨rfl, h⟩)
    · rcases pvLtb_total hab with h | h
      · exact Or.inl (Or.inl h)
      · exact Or.inr (Or.inl h)

theorem keyLtb_asymm {a b : List PrimVal} (h : keyLtb a b = true) : keyLtb b a = false := by
  by_contra hc
  have hba : keyLtb b a = true := by
    cases hx : keyLtb b a
    · exact absurd hx hc
    · rfl
  have := keyLtb_trans h hba
  rw [keyLtb_irrefl] at this
  exact Bool.false_ne_true this

theorem vleb_refl (a : Version) : vleb a a = true := by simp [vleb]

theorem vleb_trans {a b c : Version} (h1 : vleb a b = true) (h2 : vleb b c = true) :
    vleb a c = true := by
  simp only [vleb, decide_eq_true_iff] at *
  omega

theorem vltb_irrefl (a : Version) : vltb a a = false := by simp [vltb]

theorem vleb_of_vltb {a b : Version} (h : vltb a b = true) : vleb a b = true := by
  simp only [vleb, vltb, decide_eq_true_iff] at *
  omega

theorem vltb_of_vleb_of_ne {a b : Version} (h : vleb a b = true) (hne : a ≠ b) :
    vltb a b = true := by
  have hne2 : a.ts ≠ b.ts ∨ a.w ≠ b.w := by
    by_contra hc
    push_neg at hc
    exact hne (by cases a; cases b; simp_all)
  simp only [vleb, decide_eq_true_iff] at h
  simp only [vltb, decide_eq_true_iff]
  rcases hne2 with h2 | h2 <;> omega

theorem vleb_vltb_trans {a b c : Version} (h1 : vleb a b = true) (h2 : vltb b c = true) :
    vltb a c = true := by
  simp only [vleb, vltb, decide_eq_true_iff] at *
  omega

theorem vltb_vleb_trans {a b c : Version} (h1 : vltb a b = true) (h2 : vleb b c = true) :
    vltb a c = true := by
  simp only [vleb, vltb, decide_eq_true_iff] at *
  omega

theorem not_vleb_of_vltb {a b : Version} (h : vltb a b = true) : vleb b a = false := by
  simp only [vleb, vltb, decide_eq_true_iff] at *
  simp only [decide_eq_false_iff_not]
  omega

theorem vleb_total (a b : Version) : vleb a b = true ∨ vleb b a = true := by
  simp only [vleb, decide_eq_true_iff]
  omega

/-- Validation of the model against DocRowwiseIteratorTest at read time
2000: row1 reads (row1_c, 10000, row1_e) and row2 reads
(NULL, 20000, row2_e). -/
theorem scenarioOne_read2000 :
    iterate false (mockOracle []) 2000 schemaT projCDE storeOne =
      .ok [⟨dk1, [(30, some (.vstr "row1_c")), (40, some (.vint 10000)),
                  (50, some (.vstr "row1_e"))]⟩,
           ⟨dk2, [(30, none), (40, some (.vint 20000)), (50, some (.vstr "row2_e"))]⟩] := by
  rfl

/-- Validation of the model against DocRowwiseIteratorTest at read time
5000: the delete of column d of row2 at 2500 and the overwrites at 3000 and
4000 are now visible. -/
theorem scenarioOne_read5000 :
    iterate false (mockOracle []) 5000 schemaT projCDE storeOne =
      .ok [⟨dk1, [(30, some (.vstr "row1_c")), (40, some (.vint 10000)),
                  (50, some (.vstr "row1_e"))]⟩,
           ⟨dk2, [(30, none), (40, some (.vint 30000)),
                  (50, some (.vstr "row2_e_prime"))]⟩] := by
  rfl

/-- Validation of the model against DocRowwiseIteratorResolveWriteIntents
at read time 2000: both transactions are pending, so only the regular
writes are visible. -/
theorem scenarioFive_read2000 :
    iterate true (mockOracle commitsFive) 2000 schemaT projCDE storeFive =
      .ok [⟨dk1, [(30, some (.vstr "row1_c")), (40, some (.vint 10000)),
                  (50, some (.vstr "row1_e"))]⟩,
           ⟨dk2, [(30, none), (40, some (.vint 20000)), (50, some (.vstr "row2_e"))]⟩] := by
  rfl

/-- Validation of the model against DocRowwiseIteratorResolveWriteIntents
at read time 5000: transaction 1 is committed at 3500, so its intents win
over the older regular writes; transaction 2 is still pending. -/
theorem scenarioFive_read5000 :
    iterate true (mockOracle commitsFive) 5000 schemaT projCDE storeFive =
      .ok [⟨dk1, [(30, some (.vstr "row1_c_t1")), (40, some (.vint 40000)),
                  (50, some (.vstr "row1_e_t1"))]⟩,
           ⟨dk2, [(30, none), (40, some (.vint 42000)),
                  (50, some (.vstr "row2_e_prime"))]⟩] := by
  rfl

/-- Validation of the model against DocRowwiseIteratorResolveWriteIntents
at read time 6000: transaction 2 is committed at 6000; its document
tombstone hides row1 entirely and its write at row2 column e is visible. -/
theorem scenarioFive_read6000 :
    iterate true (mockOracle commitsFive) 6000 schemaT projCDE storeFive =
      .ok [⟨dk2, [(30, none), (40, some (.vint 42000)),
                  (50, some (.vstr "row2_e_t2"))]⟩] := by
  rfl

/-- Validation of the model against DocRowwiseIteratorMultipleDeletes at
read time 2800 plus 2 milliseconds: row1 is fully hidden (its TTL write
expired, everything else is under the document tombstone) and is skipped;
row2 keeps its unexpired TTL write at column e. -/
theorem scenarioSix_read4800 :
    iterate false (mockOracle []) 4800 schemaT projCE storeSix =
      .ok [⟨dk2, [(30, none), (50, some (.vstr "row2_e"))]⟩] := by
  rfl

/-- Validation of the model against DocRowwiseIteratorKeyProjection: under
the key-only projection [a, b] the row is emitted with the primary-key
values decoded from the document key. -/
theorem scenarioKP_read2800 :
    iterate false (mockOracle []) 2800 schemaT projAB storeKP =
      .ok [⟨dk1, [(10, some (.vstr "row1")), (20, some (.vint 11111))]⟩] := by
  rfl

/-! Order and membership lemmas for the sorted-insert machinery. -/

theorem vltb_asymm {a b : Version} (h : vltb a b = true) : vltb b a = false := by
  simp only [vltb, decide_eq_true_iff] at h
  simp only [vltb, decide_eq_false_iff_not]
  omega

theorem mem_insortBy {α : Type} [DecidableEq α] {lt : α → α → Bool} {k a : α} :
    ∀ {l : List α}, (a ∈ insortBy lt k l ↔ a = k ∨ a ∈ l)
  | [] => by simp [insortBy]
  | x :: xs => by
    show a ∈ (if lt k x then k :: x :: xs else if k = x then x :: xs else x :: insortBy lt k xs)
      ↔ _
    by_cases h1 : lt k x = true
    · rw [if_pos h1]
      simp only [List.mem_cons]
      try tauto
    · rw [if_neg h1]
      by_cases h2 : k = x
      · rw [if_pos h2]
        subst h2
        simp only [List.mem_cons]
        try tauto
      · rw [if_neg h2]
        simp only [List.mem_cons, mem_insortBy (l := xs)]
        try tauto

theorem pairwise_insortBy {α : Type} [DecidableEq α] {lt : α → α → Bool}
    (htrans : ∀ a b c : α, lt a b = true → lt b c = true → lt a c = true)
    (htotal : ∀ a b : α, a ≠ b → lt a b = true ∨ lt b a = true)
    {k : α} : ∀ {l : List α}, l.Pairwise (fun a b => lt a b = true) →
      (insortBy lt k l).Pairwise (fun a b => lt a b = true)
  | [], _ => by simp [insortBy]
  | x :: xs, hp => by
    obtain ⟨hx, hxs⟩ := List.pairwise_cons.mp hp
    by_cases h1 : lt k x = true
    · simp only [insortBy, h1, if_true]
      refine List.pairwise_cons.mpr ⟨?_, hp⟩
      intro b hb
      rcases List.mem_cons.mp hb with rfl | hb
      · exact h1
      · exact htrans _ _ _ h1 (hx b hb)
    · by_cases h2 : k = x
      · subst h2
        simpa only [insortBy, h1, if_false, if_true] using hp
      · simp only [insortBy, h1, h2, if_false]
        refine List.pairwise_cons.mpr ⟨?_, pairwise_insortBy htrans htotal hxs⟩
        intro b hb
        rcases mem_insortBy.mp hb with rfl | hb
        · rcases htotal _ _ h2 with h | h
          · exact absurd h h1
          · exact h
        · exact hx b hb

theorem sorted_ext {α : Type} {lt : α → α → Bool}
    (htrans : ∀ a b c : α, lt a b = true → lt b c = true → lt a c = true)
    (hirr : ∀ a : α, lt a a = false) :
    ∀ {l1 l2 : List α}, l1.Pairwise (fun a b => lt a b = true) →
      l2.Pairwise (fun a b => lt a b = true) → (∀ a, a ∈ l1 ↔ a ∈ l2) → l1 = l2
  | [], [], _, _, _ => rfl
  | [], x :: _, _, _, hm => by
    have := (hm x).mpr (List.mem_cons_self x _)
    simp at this
  | x :: _, [], _, _, hm => by
    have := (hm x).mp (List.mem_cons_self x _)
    simp at this
  | x1 :: t1, x2 :: t2, hp1, hp2, hm => by
    obtain ⟨hx1, ht1⟩ := List.pairwise_cons.mp hp1
    obtain ⟨hx2, ht2⟩ := List.pairwise_cons.mp hp2
    have hasymm : ∀ {a b : α}, lt a b = true → lt b a ≠ true := by
      intro a b hab hba
      have := htrans _ _ _ hab hba
      rw [hirr] at this
      exact Bool.false_ne_true this
    have hx12 : x1 = x2 := by
      rcases List.mem_cons.mp ((hm x1).mp (List.mem_cons_self x1 t1)) with h | h
      · exact h
      · rcases List.mem_cons.mp ((hm x2).mpr (List.mem_cons_self x2 t2)) with h2 | h2
        · exact h2.symm
        · exact absurd (hx2 x1 h) (hasymm (hx1 x2 h2))
    subst hx12
    have hmt : ∀ a, a ∈ t1 ↔ a ∈ t2 := by
      intro a
      constructor
      · intro ha
        rcases List.mem_cons.mp ((hm a).mp (List.mem_cons.mpr (Or.inr ha))) with h | h
        · subst h
          have := hx1 a ha
          rw [hirr] at this
          exact absurd this Bool.false_ne_true
        · exact h
      · intro ha
        rcases List.mem_cons.mp ((hm a).mpr (List.mem_cons.mpr (Or.inr ha))) with h | h
        · subst h
          have := hx2 a ha
          rw [hirr] at this
          exact absurd this Bool.false_ne_true
        · exact h
    rw [sorted_ext htrans hirr ht1 ht2 hmt]

theorem docKeysOf_cons (e : VEntry) (es : List VEntry) :
    docKeysOf (e :: es) = insortBy keyLtb e.key (docKeysOf es) := rfl

theorem pairwise_docKeysOf (rs : List VEntry) :
    (docKeysOf rs).Pairwise (fun a b => keyLtb a b = true) := by
  induction rs with
  | nil => simp [docKeysOf]
  | cons e es ih =>
    rw [docKeysOf_cons]
    exact @pairwise_insortBy (List PrimVal) _ keyLtb
      (fun _ _ _ h1 h2 => keyLtb_trans h1 h2) (fun _ _ h => keyLtb_total h)
      e.key (docKeysOf es) ih

theorem mem_docKeysOf {rs : List VEntry} {d : DocKey} :
    d ∈ docKeysOf rs ↔ ∃ e ∈ rs, e.key = d := by
  induction rs with
  | nil => simp [docKeysOf]
  | cons e es ih =>
    rw [docKeysOf_cons, mem_insortBy, ih]
    constructor
    · rintro (rfl | ⟨e2, he2, rfl⟩)
      · exact ⟨e, List.mem_cons_self e es, rfl⟩
      · exact ⟨e2, List.mem_cons.mpr (Or.inr he2), rfl⟩
    · rintro ⟨e2, he2, rfl⟩
      rcases List.mem_cons.mp he2 with rfl | he2
      · exact Or.inl rfl
      · exact Or.inr ⟨e2, he2, rfl⟩

/-! Lemmas about the latest version of a cell. -/

theorem latestBy_eq_none {α : Type} {f : α → Version} :
    ∀ {l : List α}, latestBy f l = none ↔ l = []
  | [] => by simp [latestBy]
  | e :: es => by
    simp only [latestBy]
    cases latestBy f es with
    | none => simp
    | some m =>
      by_cases h : vltb (f m) (f e) = true <;> simp [h]

theorem latestBy_mem {α : Type} {f : α → Version} :
    ∀ {l : List α} {m : α}, latestBy f l = some m → m ∈ l
  | [], m, h => by simp [latestBy] at h
  | e :: es, m, h => by
    cases hes : latestBy f es with
    | none =>
      simp only [latestBy, hes, Option.some.injEq] at h
      exact h ▸ List.mem_cons_self e es
    | some m2 =>
      simp only [latestBy, hes] at h
      by_cases hc : vltb (f m2) (f e) = true
      · rw [if_pos hc] at h
        simp only [Option.some.injEq] at h
        exact h ▸ List.mem_cons_self e es
      · rw [if_neg hc] at h
        simp only [Option.some.injEq] at h
        exact List.mem_cons.mpr (Or.inr (h ▸ latestBy_mem hes))

theorem latestBy_max {α : Type} {f : α → Version} :
    ∀ {l : List α} {m : α}, latestBy f l = some m → ∀ x ∈ l, vleb (f x) (f m) = true
  | [], m, h => by simp [latestBy] at h
  | e :: es, m, h => by
    intro x hx
    cases hes : latestBy f es with
    | none =>
      simp only [latestBy, hes, Option.some.injEq] at h
      subst h
      rcases List.mem_cons.mp hx with rfl | hx
      · exact vleb_refl _
      · rw [latestBy_eq_none.mp hes] at hx
        simp at hx
    | some m2 =>
      simp only [latestBy, hes] at h
      by_cases hc : vltb (f m2) (f e) = true
      · rw [if_pos hc] at h
        simp only [Option.some.injEq] at h
        subst h
        rcases List.mem_cons.mp hx with rfl | hx
        · exact vleb_refl _
        · exact vleb_trans (latestBy_max hes x hx) (vleb_of_vltb hc)
      · rw [if_neg hc] at h
        simp only [Option.some.injEq] at h
        rw [← h]
        rcases List.mem_cons.mp hx with hxe | hx
        · rw [hxe]
          rcases vleb_total (f e) (f m2) with h1 | h1
          · exact h1
          · by_cases hxm : f e = f m2
            · rw [hxm]
              exact vleb_refl _
            · exact absurd (vltb_of_vleb_of_ne h1 (fun hfx => hxm hfx.symm)) hc
        · exact latestBy_max hes x hx

theorem latestBy_unique {α : Type} {f : α → Version} :
    ∀ {l : List α} {m : α}, m ∈ l → (∀ x ∈ l, x ≠ m → vltb (f x) (f m) = true) →
      latestBy f l = some m
  | [], m, hm, _ => by simp at hm
  | e :: es, m, hm, hlt => by
    by_cases hem : e = m
    · subst hem
      cases hes : latestBy f es with
      | none => simp [latestBy, hes]
      | some m2 =>
        have hm2 : m2 ∈ es := latestBy_mem hes
        simp only [latestBy, hes]
        by_cases hm2e : m2 = e
        · subst hm2e
          rw [if_neg]
          rw [vltb_irrefl]
          exact Bool.false_ne_true
        · have := hlt m2 (List.mem_cons.mpr (Or.inr hm2)) hm2e
          rw [if_pos this]
    · have hmes : m ∈ es := by
        rcases List.mem_cons.mp hm with h | h
        · exact absurd h.symm hem
        · exact h
      have ihm : latestBy f es = some m :=
        latestBy_unique hmes (fun x hx hxm => hlt x (List.mem_cons.mpr (Or.inr hx)) hxm)
      simp only [latestBy, ihm]
      have hem2 : vltb (f e) (f m) = true :=
        hlt e (List.mem_cons_self e es) hem
      rw [if_neg]
      rw [vltb_asymm hem2]
      exact Bool.false_ne_true

/-! Lemmas about store resolution. -/

theorem resolveStore_filter_invis {txnCtx : Bool} {oracle : Oracle} {R : Nat}
    {p : Entry → Bool} :
    ∀ {l : List Entry}, (∀ e ∈ l, p e = false → resolveEntry txnCtx oracle R e = .ok none) →
      resolveStore txnCtx oracle R (l.filter p) = resolveStore txnCtx oracle R l
  | [], _ => rfl
  | e :: es, h => by
    have ih := resolveStore_filter_invis
      (fun e2 he2 hp2 => h e2 (List.mem_cons.mpr (Or.inr he2)) hp2)
    by_cases hp : p e = true
    · simp only [List.filter_cons, hp, if_true, resolveStore, ih]
    · have hp2 : p e = false := by
        cases hpe : p e
        · rfl
        · exact absurd hpe hp
      have hre := h e (List.mem_cons_self e es) hp2
      simp only [List.filter_cons, hp2, Bool.false_eq_true, if_false, resolveStore, hre, ih]

theorem resolveStore_set_congr {txnCtx : Bool} {oracle : Oracle} {R : Nat} {e e2 : Entry}
    (hre : resolveEntry txnCtx oracle R e2 = resolveEntry txnCtx oracle R e) :
    ∀ {l : List Entry} {i : Nat}, l[i]? = some e →
      resolveStore txnCtx oracle R (l.set i e2) = resolveStore txnCtx oracle R l
  | [], i, hi => by simp at hi
  | x :: xs, 0, hi => by
    simp only [List.getElem?_cons_zero, Option.some.injEq] at hi
    subst hi
    simp only [List.set_cons_zero, resolveStore, hre]
  | x :: xs, i + 1, hi => by
    simp only [List.getElem?_cons_succ] at hi
    simp only [List.set_cons_succ, resolveStore, resolveStore_set_congr hre hi]

theorem resolveStore_eraseIdx {txnCtx : Bool} {oracle : Oracle} {R : Nat} {e : Entry} :
    ∀ {l : List Entry} {i : Nat}, l[i]? = some e →
      resolveEntry txnCtx oracle R e = .ok none →
      resolveStore txnCtx oracle R (l.eraseIdx i) = resolveStore txnCtx oracle R l
  | [], i, hi, _ => by simp at hi
  | x :: xs, 0, hi, hre => by
    simp only [List.getElem?_cons_zero, Option.some.injEq] at hi
    subst hi
    simp only [List.eraseIdx_cons_zero, resolveStore, hre]
  | x :: xs, i + 1, hi, hre => by
    simp only [List.getElem?_cons_succ] at hi
    simp only [List.eraseIdx_cons_succ, resolveStore, resolveStore_eraseIdx hi hre]

theorem resolveEntry_error_iff {txnCtx : Bool} {oracle : Oracle} {R : Nat} {e : Entry} :
    resolveEntry txnCtx oracle R e = .error .tryAgain ↔
      (txnCtx = true ∧ ∃ t, e.kind = .strong t ∧ oracle t R = .unknown) := by
  cases hk : e.kind with
  | regular => simp [resolveEntry, hk]
  | weak t => simp [resolveEntry, hk]
  | strong t =>
    cases txnCtx with
    | false => simp [resolveEntry, hk]
    | true =>
      cases ho : oracle t R <;>
        simp [resolveEntry, hk, ho]

theorem unknownIntentB_iff {oracle : Oracle} {R : Nat} {e : Entry} :
    unknownIntentB oracle R e = true ↔
      ∃ t, e.kind = .strong t ∧ oracle t R = .unknown := by
  cases hk : e.kind with
  | regular => simp [unknownIntentB, hk]
  | weak t => simp [unknownIntentB, hk]
  | strong t => simp [unknownIntentB, hk]

theorem resolveStore_error_iff {txnCtx : Bool} {oracle : Oracle} {R : Nat} :
    ∀ {l : List Entry}, (resolveStore txnCtx oracle R l = .error .tryAgain ↔
      ∃ e ∈ l, resolveEntry txnCtx oracle R e = .error .tryAgain)
  | [] => by simp [resolveStore]
  | e :: es => by
    simp only [resolveStore]
    cases hre : resolveEntry txnCtx oracle R e with
    | error er =>
      cases er
      simp only [List.mem_cons]
      constructor
      · intro _
        exact ⟨e, Or.inl rfl, hre⟩
      · intro _
        trivial
    | ok v =>
      cases v with
      | none =>
        rw [resolveStore_error_iff (l := es)]
        simp only [List.mem_cons]
        constructor
        · rintro ⟨e2, he2, h2⟩
          exact ⟨e2, Or.inr he2, h2⟩
        · rintro ⟨e2, he2, h2⟩
          rcases he2 with rfl | he2
          · rw [hre] at h2
            simp at h2
          · exact ⟨e2, he2, h2⟩
      | some ve =>
        cases hes : resolveStore txnCtx oracle R es with
        | error er =>
          cases er
          simp only [List.mem_cons]
          constructor
          · intro _
            obtain ⟨e2, he2, h2⟩ := resolveStore_error_iff.mp hes
            exact ⟨e2, Or.inr he2, h2⟩
          · intro _
            trivial
        | ok vs =>
          simp only [List.mem_cons]
          constructor
          · intro h
            simp at h
          · rintro ⟨e2, he2, h2⟩
            rcases he2 with rfl | he2
            · rw [hre] at h2
              simp at h2
            · have := resolveStore_error_iff.mpr ⟨e2, he2, h2⟩
              rw [hes] at this
              simp at this

theorem resolveStore_ok_or_error {txnCtx : Bool} {oracle : Oracle} {R : Nat}
    (l : List Entry) :
    (∃ rs, resolveStore txnCtx oracle R l = .ok rs) ∨
      resolveStore txnCtx oracle R l = .error .tryAgain := by
  cases h : resolveStore txnCtx oracle R l with
  | ok rs => exact Or.inl ⟨rs, rfl⟩
  | error er =>
    cases er
    exact Or.inr rfl

/-! Lemmas about the produced rows. -/

theorem docRowPure_key {schema : Schema} {proj : List Nat} {rs : List VEntry} {d : DocKey}
    {r : Row} (h : docRowPure schema proj rs d = some r) : r.key = d := by
  unfold docRowPure at h
  by_cases hs : skipDocB schema proj rs d = true
  · rw [if_pos hs] at h
    simp at h
  · rw [if_neg hs] at h
    simp only [Option.some.injEq] at h
    rw [← h]

theorem filterMap_diag_sublist {α : Type} {g : α → Option α}
    (hg : ∀ a, g a = none ∨ g a = some a) : ∀ l : List α, List.Sublist (l.filterMap g) l
  | [] => by simp
  | a :: l => by
    rcases hg a with h | h
    · simp only [List.filterMap_cons, h]
      exact List.Sublist.cons a (filterMap_diag_sublist hg l)
    · simp only [List.filterMap_cons, h]
      exact List.Sublist.cons₂ a (filterMap_diag_sublist hg l)

theorem buildRows_keys_pairwise (schema : Schema) (proj : List Nat) (rs : List VEntry) :
    ((buildRows schema proj rs).map (fun r => r.key)).Pairwise
      (fun a b => keyLtb a b = true) := by
  have h1 : (buildRows schema proj rs).map (fun r => r.key) =
      (docKeysOf rs).filterMap (fun d => (docRowPure schema proj rs d).map (fun r => r.key)) := by
    rw [buildRows, List.map_filterMap]
  have hg : ∀ d, ((docRowPure schema proj rs d).map (fun r => r.key)) = none ∨
      ((docRowPure schema proj rs d).map (fun r => r.key)) = some d := by
    intro d
    cases hd : docRowPure schema proj rs d with
    | none => exact Or.inl rfl
    | some r =>
      right
      show some r.key = some d
      rw [docRowPure_key hd]
  rw [h1]
  exact List.Pairwise.sublist (filterMap_diag_sublist hg _) (pairwise_docKeysOf rs)

theorem mem_buildRows {schema : Schema} {proj : List Nat} {rs : List VEntry} {r : Row} :
    r ∈ buildRows schema proj rs ↔
      ∃ d ∈ docKeysOf rs, docRowPure schema proj rs d = some r := by
  rw [buildRows, List.mem_filterMap]

/-! Lemmas about the iterator facade. -/

theorem hasNext_fix (ctx : WalkCtx) (f : Facade) :
    hasNext ctx (hasNext ctx f).2 = hasNext ctx f := by
  cases f with
  | mk docs cache done =>
    cases cache with
    | some r => rfl
    | none =>
      cases done with
      | true => rfl
      | false =>
        cases hs : stepWalk ctx docs with
        | some rd =>
          cases rd with
          | mk r ds => simp [hasNext, hs]
        | none => simp [hasNext, hs]

theorem hasNextN_eq (ctx : WalkCtx) : ∀ (n : Nat) (f : Facade),
    hasNextN ctx n f = hasNext ctx f
  | 0, _ => rfl
  | n + 1, f => by
    show hasNextN ctx n (hasNext ctx f).2 = hasNext ctx f
    rw [hasNextN_eq ctx n (hasNext ctx f).2, hasNext_fix]

theorem rowSeq_congr (ctx : WalkCtx) {f g : Facade} (h : hasNext ctx f = hasNext ctx g) :
    ∀ fuel, rowSeq ctx fuel f = rowSeq ctx fuel g
  | 0 => rfl
  | fuel + 1 => by
    have hn : nextRow ctx f = nextRow ctx g := by
      unfold nextRow
      rw [h]
    simp only [rowSeq, hn]

theorem rowSeq_from_docs (ctx : WalkCtx) :
    ∀ (docs : List DocKey) (fuel : Nat), docs.length ≤ fuel →
      rowSeq ctx fuel ⟨docs, none, false⟩ =
        docs.filterMap (fun d => docRowPure ctx.schema ctx.proj ctx.rs d)
  | [], fuel, _ => by
    cases fuel with
    | zero => rfl
    | succ fu => rfl
  | d :: ds, fuel, hlen => by
    cases hd : docRowPure ctx.schema ctx.proj ctx.rs d with
    | some r =>
      cases fuel with
      | zero => simp at hlen
      | succ fu =>
        have hstep : stepWalk ctx (d :: ds) = some (r, ds) := by
          simp [stepWalk, hd]
        have hnext : nextRow ctx ⟨d :: ds, none, false⟩ = (some r, ⟨ds, none, false⟩) := by
          simp [nextRow, hasNext, hstep]
        simp only [rowSeq, hnext, List.filterMap_cons, hd]
        rw [rowSeq_from_docs ctx ds fu (by simpa using Nat.le_of_succ_le_succ hlen)]
    | none =>
      have hstep : stepWalk ctx (d :: ds) = stepWalk ctx ds := by
        simp [stepWalk, hd]
      have hh : hasNext ctx ⟨d :: ds, none, false⟩ = hasNext ctx ⟨ds, none, false⟩ := by
        cases hs2 : stepWalk ctx ds with
        | some rd =>
          cases rd with
          | mk r2 ds2 =>
            have h1 : stepWalk ctx (d :: ds) = some (r2, ds2) := by rw [hstep, hs2]
            simp [hasNext, h1, hs2]
        | none =>
          have h1 : stepWalk ctx (d :: ds) = none := by rw [hstep, hs2]
          simp [hasNext, h1, hs2]
      rw [rowSeq_congr ctx hh fuel]
      simp only [List.filterMap_cons, hd]
      exact rowSeq_from_docs ctx ds fuel (Nat.le_trans (Nat.le_succ _) hlen)

theorem facade_drain (ctx : WalkCtx) (fuel : Nat)
    (h : (docKeysOf ctx.rs).length ≤ fuel) :
    rowSeq ctx fuel (facadeInit ctx) = buildRows ctx.schema ctx.proj ctx.rs :=
  rowSeq_from_docs ctx (docKeysOf ctx.rs) fuel h

theorem effPayload_none (R : Nat) (v : Version) (p : Payload) :
    effPayload R v p none = p := by
  cases p <;> rfl

theorem resolveEntry_ttlRewrite (txnCtx : Bool) (oracle : Oracle) (R : Nat) (e : Entry)
    (hk : e.kind = .regular) :
    resolveEntry txnCtx oracle R (ttlRewrite R e) = resolveEntry txnCtx oracle R e := by
  cases e with
  | mk k pth v kd p ttl =>
    simp only at hk
    subst hk
    cases p with
    | tombstone => rfl
    | prim x =>
      cases ttl with
      | none => rfl
      | some dl =>
        by_cases hexp : v.ts + dl ≤ R
        · simp only [ttlRewrite, if_pos hexp]
          simp only [resolveEntry, effPayload]
          rw [if_pos hexp]
        · simp only [ttlRewrite, if_neg hexp]
          simp only [resolveEntry, effPayload]
          rw [if_neg hexp]

theorem resolveEntry_regularized {oracle : Oracle} {R : Nat} {e : Entry} {t c : Nat}
    (hk : e.kind = .strong t) (ho : oracle t R = .committed c) :
    resolveEntry true oracle R (regularized e c) = resolveEntry true oracle R e := by
  simp only [resolveEntry, regularized, hk, ho, if_true, effPayload_none]

/-! Claim theorems. -/

/-- C3: a value written at time T with a TTL duration behaves, at every
read time R, exactly like the entry its TTL rewrite produces: a tombstone
written at T once R - T has reached the duration, and the plain value
before that; the rewrite touches only that one version, so TTL does not
propagate to other versions. -/
theorem ttl_expiry_equiv (txnCtx : Bool) (oracle : Oracle) (R : Nat) (schema : Schema)
    (proj : List Nat) (store : List Entry) (i : Nat) (e : Entry)
    (hi : store[i]? = some e) (hk : e.kind = .regular) :
    iterate txnCtx oracle R schema proj (store.set i (ttlRewrite R e)) =
      iterate txnCtx oracle R schema proj store := by
  unfold iterate
  rw [resolveStore_set_congr (resolveEntry_ttlRewrite txnCtx oracle R e hk) hi]

/-- Witness for C3: the TTL-bearing write of DocRowwiseIteratorMultipleDeletes
(row1 column e at 2800 with TTL 1000), read at 4800, after expiry. -/
theorem ttl_expiry_equiv_witness :
    iterate false (mockOracle []) 4800 schemaT projCDE
        (storeC3.set 0 (ttlRewrite 4800 (rcellTtl dk1 50 2800 0 1000 (.prim (.vstr "row1_e"))))) =
      iterate false (mockOracle []) 4800 schemaT projCDE storeC3 :=
  ttl_expiry_equiv false (mockOracle []) 4800 schemaT projCDE storeC3 0
    (rcellTtl dk1 50 2800 0 1000 (.prim (.vstr "row1_e"))) rfl rfl

/-- C4: under a transactional read context, a strong intent whose
transaction status is determinable participates exactly as its resolution
dictates: committed at c with c at most R, the scan result equals the scan
of the store with the intent replaced by a regular write at effective
version c; committed later than R, aborted, or pending, the scan result
equals the scan of the store with the intent removed, so the intent is
never visible. -/
theorem intent_commit_equiv (oracle : Oracle) (R : Nat) (schema : Schema) (proj : List Nat)
    (store : List Entry) (i : Nat) (e : Entry) (t : Nat)
    (hi : store[i]? = some e) (hk : e.kind = .strong t) (hs : oracle t R ≠ .unknown) :
    iterate true oracle R schema proj store =
      iterate true oracle R schema proj
        (match intentRewrite oracle R t e with
         | some e2 => store.set i e2
         | none => store.eraseIdx i) := by
  unfold iterate
  cases ho : oracle t R with
  | committed c =>
    by_cases hcr : c ≤ R
    · have hrw : intentRewrite oracle R t e = some (regularized e c) := by
        simp [intentRewrite, ho, hcr]
      rw [hrw]
      rw [resolveStore_set_congr (resolveEntry_regularized hk ho) hi]
    · have hrw : intentRewrite oracle R t e = none := by
        simp [intentRewrite, ho, hcr]
      rw [hrw]
      rw [resolveStore_eraseIdx hi (by simp [resolveEntry, hk, ho, hcr])]
  | pending =>
    have hrw : intentRewrite oracle R t e = none := by
      simp [intentRewrite, ho]
    rw [hrw]
    rw [resolveStore_eraseIdx hi (by simp [resolveEntry, hk, ho])]
  | aborted =>
    have hrw : intentRewrite oracle R t e = none := by
      simp [intentRewrite, ho]
    rw [hrw]
    rw [resolveStore_eraseIdx hi (by simp [resolveEntry, hk, ho])]
  | unknown => exact absurd ho hs

/-- Witness for C4: the intent of transaction 7 at provisional time 500,
committed at 3500, read at 5000. -/
theorem intent_commit_equiv_witness :
    iterate true (mockOracle [(7, 3500)]) 5000 schemaT projCDE storeC4 =
      iterate true (mockOracle [(7, 3500)]) 5000 schemaT projCDE
        (match intentRewrite (mockOracle [(7, 3500)]) 5000 7
            (icell dk1 30 500 0 7 (.prim (.vstr "new"))) with
         | some e2 => storeC4.set 1 e2
         | none => storeC4.eraseIdx 1) :=
  intent_commit_equiv (mockOracle [(7, 3500)]) 5000 schemaT projCDE storeC4 1
    (icell dk1 30 500 0 7 (.prim (.vstr "new"))) 7 rfl rfl (by decide)

/-- C5 counterexample: at read time 5000 the mock oracle reports PENDING
for transaction 7, whose strong intent at provisional time 4000 would
otherwise determine the cell (committing the transaction at a time at or
before the read time changes the produced row from the regular value to
the intent value), yet the read succeeds with the regular value instead of
failing with a TryAgain error.  This refutes the claim that a PENDING
status fails the read. -/
theorem pending_fails_read_counterexample :
    mockOracle [(7, 6000)] 7 5000 = .pending ∧
    iterate true (mockOracle [(7, 6000)]) 5000 schemaT projCDE storeC5 =
      .ok [⟨dk1, [(30, some (.vstr "old")), (40, none), (50, none)]⟩] ∧
    iterate true (mockOracle [(7, 3000)]) 5000 schemaT projCDE storeC5 =
      .ok [⟨dk1, [(30, some (.vstr "new")), (40, none), (50, none)]⟩] :=
  ⟨rfl, by rfl, by rfl⟩

/-- C5 (amended): under a transactional read context the scan fails with a
TryAgain error exactly when the scanned range contains a strong intent
whose transaction status the oracle cannot determine (the mock answers so
for every unknown transaction id); in particular a PENDING status never
fails the read. -/
theorem unknown_status_try_again (oracle : Oracle) (R : Nat) (schema : Schema)
    (proj : List Nat) (store : List Entry) :
    iterate true oracle R schema proj store = .error .tryAgain ↔
      ∃ e ∈ store, unknownIntentB oracle R e = true := by
  unfold iterate
  constructor
  · intro h
    cases hr : resolveStore true oracle R store with
    | ok rs =>
      rw [hr] at h
      simp [Except.map] at h
    | error er =>
      cases er
      obtain ⟨e, he, h2⟩ := resolveStore_error_iff.mp hr
      obtain ⟨_, t, hkk, ho⟩ := resolveEntry_error_iff.mp h2
      exact ⟨e, he, unknownIntentB_iff.mpr ⟨t, hkk, ho⟩⟩
  · rintro ⟨e, he, hu⟩
    obtain ⟨t, hkk, ho⟩ := unknownIntentB_iff.mp hu
    have h2 : resolveEntry true oracle R e = .error .tryAgain :=
      resolveEntry_error_iff.mpr ⟨rfl, t, hkk, ho⟩
    rw [resolveStore_error_iff.mpr ⟨e, he, h2⟩]
    rfl

/-- Witness for the amended C5: a store holding one strong intent of a
transaction the mock does not know fails with TryAgain. -/
theorem unknown_status_try_again_witness :
    iterate true (mockOracle []) 5000 schemaT projCDE storeC5u = .error .tryAgain :=
  (unknown_status_try_again (mockOracle []) 5000 schemaT projCDE storeC5u).mpr
    ⟨icell dk1 30 500 0 9 (.prim (.vstr "x")), List.mem_cons_self _ _, rfl⟩

/-- C10: intents of transactions the oracle reports as pending (the mock
answers PENDING exactly when the commit time lies after the read time) are
treated as invisible rather than failing the read: the scan result equals
the scan of the store with every such intent removed, and provided no
strong intent has an undeterminable status the scan succeeds with rows. -/
theorem pending_intents_invisible (txnCtx : Bool) (oracle : Oracle) (R : Nat)
    (schema : Schema) (proj : List Nat) (store : List Entry)
    (hnu : ∀ e ∈ store, unknownIntentB oracle R e = false) :
    iterate txnCtx oracle R schema proj store =
      iterate txnCtx oracle R schema proj
        (store.filter (fun e => !pendingIntentB oracle R e)) ∧
      ∃ rows, iterate txnCtx oracle R schema proj store = .ok rows := by
  constructor
  · unfold iterate
    rw [resolveStore_filter_invis]
    intro e _ hp
    have hp2 : pendingIntentB oracle R e = true := by
      cases hx : pendingIntentB oracle R e
      · rw [hx] at hp
        simp at hp
      · rfl
    cases hke : e.kind with
    | regular =>
      rw [pendingIntentB, hke] at hp2
      simp at hp2
    | strong t =>
      rw [pendingIntentB, hke] at hp2
      simp only [decide_eq_true_iff] at hp2
      cases txnCtx <;> simp [resolveEntry, hke, hp2]
    | weak t => simp [resolveEntry, hke]
  · cases hr : resolveStore txnCtx oracle R store with
    | ok rs => exact ⟨buildRows schema proj rs, by unfold iterate; rw [hr]; rfl⟩
    | error er =>
      cases er
      obtain ⟨e, he, h2⟩ := resolveStore_error_iff.mp hr
      obtain ⟨_, t, hkk, ho⟩ := resolveEntry_error_iff.mp h2
      have := hnu e he
      rw [unknownIntentB_iff.mpr ⟨t, hkk, ho⟩] at this
      simp at this

/-- Witness for C10: the pending intent of transaction 7 (commit time 6000,
read time 5000) does not fail the read and is invisible in the produced
rows. -/
theorem pending_intents_invisible_witness :
    iterate true (mockOracle [(7, 6000)]) 5000 schemaT projCDE storeC5 =
      iterate true (mockOracle [(7, 6000)]) 5000 schemaT projCDE
        (storeC5.filter (fun e => !pendingIntentB (mockOracle [(7, 6000)]) 5000 e)) ∧
      ∃ rows, iterate true (mockOracle [(7, 6000)]) 5000 schemaT projCDE storeC5 = .ok rows :=
  pending_intents_invisible true (mockOracle [(7, 6000)]) 5000 schemaT projCDE storeC5
    (by decide)

/-- C6: every sequence of rows one scan produces has its document keys
strictly ascending in byte order between consecutive rows. -/
theorem rows_strictly_ascending (txnCtx : Bool) (oracle : Oracle) (R : Nat)
    (schema : Schema) (proj : List Nat) (store : List Entry) (rows : List Row)
    (h : iterate txnCtx oracle R schema proj store = .ok rows) :
    rows.Chain' (fun r1 r2 => keyLtb r1.key r2.key = true) := by
  unfold iterate at h
  cases hr : resolveStore txnCtx oracle R store with
  | error er =>
    rw [hr] at h
    simp [Except.map] at h
  | ok rs =>
    rw [hr] at h
    have h2 : buildRows schema proj rs = rows := by
      simpa [Except.map] using h
    subst h2
    have hc := (buildRows_keys_pairwise schema proj rs).chain'
    rw [List.chain'_map] at hc
    exact hc

/-- Witness for C6: the two rows of DocRowwiseIteratorTest at read time
2000 are in strictly ascending key order. -/
theorem rows_strictly_ascending_witness :
    List.Chain' (fun r1 r2 : Row => keyLtb r1.key r2.key = true)
      [⟨dk1, [(30, some (.vstr "row1_c")), (40, some (.vint 10000)),
              (50, some (.vstr "row1_e"))]⟩,
       ⟨dk2, [(30, none), (40, some (.vint 20000)), (50, some (.vstr "row2_e"))]⟩] :=
  rows_strictly_ascending false (mockOracle []) 2000 schemaT projCDE storeOne _
    scenarioOne_read2000

/-- C7: HasNext is idempotent: from every facade state, n + 1 consecutive
HasNext calls return the same boolean and the same state as a single call,
and an extra HasNext call does not alter the sequence of rows NextRow
subsequently returns. -/
theorem hasNext_idempotent (ctx : WalkCtx) (f : Facade) (n fuel : Nat) :
    hasNextN ctx n f = hasNext ctx f ∧
      rowSeq ctx fuel (hasNext ctx f).2 = rowSeq ctx fuel f :=
  ⟨hasNextN_eq ctx n f, rowSeq_congr ctx (hasNext_fix ctx f) fuel⟩

theorem cellsGet_map_self {g : Nat → Option PrimVal} {c : Nat} :
    ∀ {l : List Nat}, c ∈ l → cellsGet c (l.map (fun x => (x, g x))) = g c
  | [], h => by simp at h
  | x :: xs, h => by
    by_cases hc : c = x
    · subst hc
      simp [cellsGet]
    · have hm : c ∈ xs := by
        rcases List.mem_cons.mp h with h2 | h2
        · exact absurd h2 hc
        · exact h2
      simp only [List.map_cons, cellsGet, if_neg hc]
      exact cellsGet_map_self hm

theorem restrict_assembleRow {schema : Schema} {p1 p2 : List Nat} {d : DocKey}
    {cells : List (Nat × Option PrimVal)} (hsub : ∀ c ∈ p1, c ∈ p2) :
    restrictRow p1 ⟨d, assembleRow schema p2 d cells⟩ = ⟨d, assembleRow schema p1 d cells⟩ := by
  unfold restrictRow assembleRow
  simp only [Row.mk.injEq, true_and]
  apply List.map_congr_left
  intro c hc
  rw [cellsGet_map_self (hsub c hc)]

theorem docRowPure_proj {schema : Schema} {p1 p2 : List Nat} {rs : List VEntry} {d : DocKey}
    (hsub : ∀ c ∈ p1, c ∈ p2)
    (hk : hasNonKeyB schema p1 = hasNonKeyB schema p2) :
    docRowPure schema p1 rs d = (docRowPure schema p2 rs d).map (restrictRow p1) := by
  unfold docRowPure
  have hskip : skipDocB schema p1 rs d = skipDocB schema p2 rs d := by
    unfold skipDocB
    rw [hk]
  by_cases hs : skipDocB schema p2 rs d = true
  · rw [if_pos (hskip.trans hs), if_pos hs]
    rfl
  · rw [if_neg fun h => hs (hskip.symm.trans h), if_neg hs]
    simp only [Option.map_some']
    rw [restrict_assembleRow hsub]

theorem buildRows_proj {schema : Schema} {p1 p2 : List Nat} {rs : List VEntry}
    (hsub : ∀ c ∈ p1, c ∈ p2)
    (hk : hasNonKeyB schema p1 = hasNonKeyB schema p2) :
    buildRows schema p1 rs = (buildRows schema p2 rs).map (restrictRow p1) := by
  unfold buildRows
  rw [List.map_filterMap]
  apply List.filterMap_congr
  intro d _
  exact docRowPure_proj hsub hk

/-- C8 counterexample: the claim fails without a side condition relating
the projections to the key columns, and non-projected store columns do
affect which rows are emitted.  With a document tombstone at version 2 over
a column write at version 1, read at 3: the key-only projection [a, b]
emits the all-NULL row while the larger projection [a, b, c] skips it, so
the value produced for column a under the larger projection does not exist;
and adding a write at the non-projected column e changes the output under
projection [c, d] from no rows to one row. -/
theorem projection_subset_counterexample :
    (∀ c ∈ projAB, c ∈ projABC) ∧
    iterate false (mockOracle []) 3 schemaT projAB storeC8 =
      .ok [⟨dk1, [(10, some (.vstr "row1")), (20, some (.vint 11111))]⟩] ∧
    iterate false (mockOracle []) 3 schemaT projABC storeC8 = .ok [] ∧
    iterate false (mockOracle []) 3 schemaT projCD storeC8d = .ok [] ∧
    iterate false (mockOracle []) 3 schemaT projCD storeC8c =
      .ok [⟨dk1, [(30, none), (40, none)]⟩] :=
  ⟨by decide, by rfl, by rfl, by rfl, by rfl⟩

/-- C8 (amended): for projections P1 contained in P2 that agree on whether
they contain a non-key column, the rows produced under P2, restricted to
the columns of P1, are exactly the rows produced under P1; in particular
the value produced for each column of P1 under P2 equals the value under
P1, and the emitted document keys coincide. -/
theorem projection_independent (txnCtx : Bool) (oracle : Oracle) (R : Nat)
    (schema : Schema) (p1 p2 : List Nat) (store : List Entry)
    (hsub : ∀ c ∈ p1, c ∈ p2)
    (hk : hasNonKeyB schema p1 = hasNonKeyB schema p2) :
    iterate txnCtx oracle R schema p1 store =
      (iterate txnCtx oracle R schema p2 store).map (List.map (restrictRow p1)) := by
  unfold iterate
  cases hr : resolveStore txnCtx oracle R store with
  | error er => rfl
  | ok rs =>
    show Except.ok (buildRows schema p1 rs) = _
    rw [buildRows_proj hsub hk]
    rfl

/-- Witness for the amended C8: projections [c, d] and [c, d, e] over the
store of DocRowwiseIteratorTest at read time 5000. -/
theorem projection_independent_witness :
    iterate false (mockOracle []) 5000 schemaT projCD storeOne =
      (iterate false (mockOracle []) 5000 schemaT projCDE storeOne).map
        (List.map (restrictRow projCD)) :=
  projection_independent false (mockOracle []) 5000 schemaT projCD projCDE storeOne
    (by decide) (by decide)

theorem docDts_cons (e : VEntry) (l : List VEntry) (d : DocKey) :
    docDts (e :: l) d =
      if e.key = d ∧ e.path = none ∧ e.payload = .tombstone then
        match docDts l d with
        | none => some e.ver
        | some dd => some (if vltb dd e.ver then e.ver else dd)
      else docDts l d := rfl

theorem colsOf_cons (e : VEntry) (l : List VEntry) (d : DocKey) :
    colsOf (e :: l) d =
      (match e.path with
       | some c => if e.key = d then insortBy natLtb c (colsOf l d) else colsOf l d
       | none => colsOf l d) := rfl

theorem cellVal_nil (dts : Option Version) : cellVal dts [] = none := rfl

theorem cellsGet_map_not_mem {g : Nat → Option PrimVal} {c : Nat} :
    ∀ {l : List Nat}, c ∉ l → cellsGet c (l.map (fun x => (x, g x))) = none
  | [], _ => rfl
  | x :: xs, h => by
    have hcx : c ≠ x := fun hc => h (hc ▸ List.mem_cons_self x xs)
    simp only [List.map_cons, cellsGet, if_neg hcx]
    exact cellsGet_map_not_mem (fun hm => h (List.mem_cons.mpr (Or.inr hm)))

theorem mem_colsOf : ∀ {rs : List VEntry} {d : DocKey} {c : Nat},
    (c ∈ colsOf rs d ↔ ∃ e ∈ rs, e.key = d ∧ e.path = some c)
  | [], d, c => by simp [colsOf]
  | e :: es, d, c => by
    rw [colsOf_cons]
    cases hp : e.path with
    | none =>
      simp only
      rw [mem_colsOf]
      constructor
      · rintro ⟨e2, he2, hk, hc⟩
        exact ⟨e2, List.mem_cons.mpr (Or.inr he2), hk, hc⟩
      · rintro ⟨e2, he2, hk, hc⟩
        rcases List.mem_cons.mp he2 with rfl | he2
        · rw [hp] at hc
          exact Option.noConfusion hc
        · exact ⟨e2, he2, hk, hc⟩
    | some c2 =>
      simp only
      by_cases hkd : e.key = d
      · rw [if_pos hkd, mem_insortBy, mem_colsOf]
        constructor
        · rintro (rfl | ⟨e2, he2, hk, hc⟩)
          · exact ⟨e, List.mem_cons_self e es, hkd, hp⟩
          · exact ⟨e2, List.mem_cons.mpr (Or.inr he2), hk, hc⟩
        · rintro ⟨e2, he2, hk, hc⟩
          rcases List.mem_cons.mp he2 with rfl | he2
          · rw [hp] at hc
            simp only [Option.some.injEq] at hc
            exact Or.inl hc.symm
          · exact Or.inr ⟨e2, he2, hk, hc⟩
      · rw [if_neg hkd, mem_colsOf]
        constructor
        · rintro ⟨e2, he2, hk, hc⟩
          exact ⟨e2, List.mem_cons.mpr (Or.inr he2), hk, hc⟩
        · rintro ⟨e2, he2, hk, hc⟩
          rcases List.mem_cons.mp he2 with rfl | he2
          · exact absurd hk hkd
          · exact ⟨e2, he2, hk, hc⟩

theorem docDts_filter {p : VEntry → Bool} {d : DocKey} :
    ∀ {rs : List VEntry},
      (∀ e ∈ rs, p e = false → ¬(e.key = d ∧ e.path = none ∧ e.payload = .tombstone)) →
      docDts (rs.filter p) d = docDts rs d
  | [], _ => rfl
  | e :: es, h => by
    have ih := docDts_filter (fun e2 he2 hp2 => h e2 (List.mem_cons.mpr (Or.inr he2)) hp2)
    cases hp : p e with
    | true =>
      rw [List.filter_cons_of_pos hp, docDts_cons, docDts_cons, ih]
    | false =>
      rw [List.filter_cons_of_neg (by rw [hp]; exact Bool.noConfusion), docDts_cons]
      rw [if_neg (h e (List.mem_cons_self e es) hp), ih]

theorem docDts_ge_mem {rs : List VEntry} {d : DocKey} {dd : Version}
    (h0 : (⟨d, none, dd, .tombstone⟩ : VEntry) ∈ rs) :
    ∃ ddm, docDts rs d = some ddm ∧ vleb dd ddm = true := by
  induction rs with
  | nil => simp at h0
  | cons e es ih =>
    rw [docDts_cons]
    rcases List.mem_cons.mp h0 with he | h0
    · rw [if_pos (by rw [← he]; exact ⟨rfl, rfl, rfl⟩)]
      cases hdts : docDts es d with
      | none =>
        refine ⟨e.ver, rfl, ?_⟩
        rw [← he]
        exact vleb_refl dd
      | some dm =>
        refine ⟨if vltb dm e.ver = true then e.ver else dm, rfl, ?_⟩
        by_cases hlt : vltb dm e.ver = true
        · rw [if_pos hlt, ← he]
          exact vleb_refl dd
        · rw [if_neg hlt]
          have hdd : e.ver = dd := by rw [← he]
          rcases vleb_total dm e.ver with h1 | h1
          · by_cases hde : dm = e.ver
            · rw [hde, hdd]
              exact vleb_refl _
            · exact absurd (vltb_of_vleb_of_ne h1 hde) hlt
          · rw [hdd] at h1
            exact h1
    · obtain ⟨ddm, hdts, hge⟩ := ih h0
      by_cases hcond : e.key = d ∧ e.path = none ∧ e.payload = .tombstone
      · rw [if_pos hcond, hdts]
        refine ⟨if vltb ddm e.ver = true then e.ver else ddm, rfl, ?_⟩
        by_cases hlt : vltb ddm e.ver = true
        · rw [if_pos hlt]
          exact vleb_trans hge (vleb_of_vltb hlt)
        · rw [if_neg hlt]
          exact hge
      · rw [if_neg hcond]
        exact ⟨ddm, hdts, hge⟩

theorem cellVal_eq_none {dts : Option Version} {ces : List VEntry}
    (hm : latestBy (fun e => e.ver) ces = none) : cellVal dts ces = none := by
  unfold cellVal
  rw [hm]

theorem cellVal_eq_some {dts : Option Version} {ces : List VEntry} {m : VEntry}
    (hm : latestBy (fun e => e.ver) ces = some m) :
    cellVal dts ces =
      (if underThreshold dts m.ver = true then none
       else
         match m.payload with
         | Payload.tombstone => none
         | Payload.prim x => some x) := by
  unfold cellVal
  rw [hm]

theorem cellVal_filter_hidden {dd ddm : Version} (hge : vleb dd ddm = true)
    {ces : List VEntry} (hdist : ∀ x ∈ ces, ∀ y ∈ ces, x.ver = y.ver → x = y) :
    cellVal (some ddm) ces = cellVal (some ddm) (ces.filter (fun e => !(vleb e.ver dd))) := by
  cases hm : latestBy (fun e => e.ver) ces with
  | none =>
    rw [latestBy_eq_none.mp hm]
    rfl
  | some m =>
    by_cases hsh : vleb m.ver ddm = true
    · rw [cellVal_eq_some hm,
        if_pos (show underThreshold (some ddm) m.ver = true from hsh)]
      cases hm2 : latestBy (fun e => e.ver) (ces.filter (fun e => !(vleb e.ver dd))) with
      | none =>
        rw [cellVal_eq_none hm2]
      | some m2 =>
        have hm2c : m2 ∈ ces := (List.mem_filter.mp (latestBy_mem hm2)).1
        have hle : vleb m2.ver m.ver = true := latestBy_max hm m2 hm2c
        rw [cellVal_eq_some hm2,
          if_pos (show underThreshold (some ddm) m2.ver = true from vleb_trans hle hsh)]
    · have hmk : (!(vleb m.ver dd)) = true := by
        cases hx : vleb m.ver dd
        · rfl
        · exact absurd (vleb_trans hx hge) hsh
      have hmem : m ∈ ces.filter (fun e => !(vleb e.ver dd)) :=
        List.mem_filter.mpr ⟨latestBy_mem hm, hmk⟩
      have huni : latestBy (fun e => e.ver) (ces.filter (fun e => !(vleb e.ver dd))) = some m := by
        apply latestBy_unique hmem
        intro x hx hxm
        have hxc : x ∈ ces := (List.mem_filter.mp hx).1
        have hle : vleb x.ver m.ver = true := latestBy_max hm x hxc
        exact vltb_of_vleb_of_ne hle
          (fun hv => hxm (hdist x hxc m (latestBy_mem hm) hv))
      rw [cellVal_eq_some hm, cellVal_eq_some huni]

theorem cellEntries_filter_other {rs : List VEntry} {p : VEntry → Bool} {d : DocKey} {c : Nat}
    (h : ∀ e ∈ rs, e.key = d → e.path = some c → p e = true) :
    cellEntries (rs.filter p) d c = cellEntries rs d c := by
  unfold cellEntries
  rw [List.filter_filter]
  apply List.filter_congr
  intro e he
  by_cases hk : e.key = d
  · by_cases hp2 : e.path = some c
    · rw [h e he hk hp2]
      simp [hk, hp2]
    · simp [hp2]
  · simp [hk]

theorem cellEntries_keep {rs : List VEntry} {d : DocKey} {c : Nat} {dd : Version} :
    cellEntries
        (rs.filter (fun e => !(decide (e.key = d) && e.path.isSome && vleb e.ver dd))) d c =
      (cellEntries rs d c).filter (fun e => !(vleb e.ver dd)) := by
  unfold cellEntries
  rw [List.filter_filter, List.filter_filter]
  apply List.filter_congr
  intro e _
  by_cases hk : e.key = d
  · by_cases hp : e.path = some c
    · simp [hk, hp]
    · simp [hp]
  · simp [hk]

theorem cellEntries_eq_nil {rs : List VEntry} {d : DocKey} {c : Nat}
    (h : ¬∃ e ∈ rs, e.key = d ∧ e.path = some c) : cellEntries rs d c = [] := by
  cases hres : cellEntries rs d c with
  | nil => rfl
  | cons e es =>
    have he : e ∈ cellEntries rs d c := by
      rw [hres]
      exact List.mem_cons_self e es
    have hm := List.mem_filter.mp he
    obtain ⟨hk, hp⟩ : e.key = d ∧ e.path = some c := by simpa using hm.2
    exact absurd ⟨e, hm.1, hk, hp⟩ h

theorem colsOf_filter {p : VEntry → Bool} {d2 : DocKey} :
    ∀ {rs : List VEntry}, (∀ e ∈ rs, p e = false → e.key ≠ d2) →
      colsOf (rs.filter p) d2 = colsOf rs d2
  | [], _ => rfl
  | e :: es, h => by
    have ih := colsOf_filter (fun e2 he2 hp2 => h e2 (List.mem_cons.mpr (Or.inr he2)) hp2)
    cases hpe : p e with
    | true =>
      rw [List.filter_cons_of_pos hpe, colsOf_cons, colsOf_cons, ih]
    | false =>
      rw [List.filter_cons_of_neg (by rw [hpe]; exact Bool.noConfusion), colsOf_cons]
      have hk2 : e.key ≠ d2 := h e (List.mem_cons_self e es) hpe
      cases hp2 : e.path with
      | none => exact ih
      | some c2 =>
        show colsOf (List.filter p es) d2 =
          if e.key = d2 then insortBy natLtb c2 (colsOf es d2) else colsOf es d2
        rw [if_neg hk2]
        exact ih

theorem docCells_filter_other {p : VEntry → Bool} {rs : List VEntry} {d2 : DocKey}
    (h : ∀ e ∈ rs, p e = false → e.key ≠ d2) :
    docCells (rs.filter p) d2 = docCells rs d2 := by
  unfold docCells
  rw [colsOf_filter h, docDts_filter (fun e he hp hc => h e he hp hc.1)]
  apply List.map_congr_left
  intro c _
  rw [cellEntries_filter_other (fun e he hk _ => ?_)]
  cases hpe : p e with
  | true => rfl
  | false => exact absurd hk (h e he hpe)

theorem docRowPure_filter_other {schema : Schema} {proj : List Nat} {p : VEntry → Bool}
    {rs : List VEntry} {d2 : DocKey}
    (h : ∀ e ∈ rs, p e = false → e.key ≠ d2) :
    docRowPure schema proj (rs.filter p) d2 = docRowPure schema proj rs d2 := by
  unfold docRowPure skipDocB
  rw [docCells_filter_other h, docDts_filter (fun e he hp hc => h e he hp hc.1)]

theorem docRowPure_tomb_filter {schema : Schema} {proj : List Nat} {rs : List VEntry}
    {d : DocKey} {dd : Version}
    (h0 : (⟨d, none, dd, .tombstone⟩ : VEntry) ∈ rs)
    (hinj : versionInjective rs) :
    docRowPure schema proj
        (rs.filter (fun e => !(decide (e.key = d) && e.path.isSome && vleb e.ver dd))) d =
      docRowPure schema proj rs d := by
  obtain ⟨ddm, hdts, hge⟩ := docDts_ge_mem h0
  have hpfalse : ∀ e ∈ rs,
      (fun e : VEntry => !(decide (e.key = d) && e.path.isSome && vleb e.ver dd)) e = false →
      ¬(e.key = d ∧ e.path = none ∧ e.payload = .tombstone) := by
    intro e _ hf hc
    simp [hc.2.1] at hf
  have hdts2 : docDts
      (rs.filter (fun e => !(decide (e.key = d) && e.path.isSome && vleb e.ver dd))) d =
      docDts rs d := docDts_filter hpfalse
  have hdistc : ∀ c, ∀ x ∈ cellEntries rs d c, ∀ y ∈ cellEntries rs d c,
      x.ver = y.ver → x = y := by
    intro c x hx y hy hv
    have hxm := List.mem_filter.mp hx
    have hym := List.mem_filter.mp hy
    obtain ⟨hxk, hxp⟩ : x.key = d ∧ x.path = some c := by simpa using hxm.2
    obtain ⟨hyk, hyp⟩ : y.key = d ∧ y.path = some c := by simpa using hym.2
    exact hinj x hxm.1 y hym.1 (by rw [hxk, hyk]) (by rw [hxp, hyp]) hv
  have hcell : ∀ c, cellVal (docDts rs d)
      (cellEntries
        (rs.filter (fun e => !(decide (e.key = d) && e.path.isSome && vleb e.ver dd))) d c) =
      cellVal (docDts rs d) (cellEntries rs d c) := by
    intro c
    rw [cellEntries_keep, hdts]
    exact (cellVal_filter_hidden hge (hdistc c)).symm
  have hsubcols : ∀ c, c ∈ colsOf
      (rs.filter (fun e => !(decide (e.key = d) && e.path.isSome && vleb e.ver dd))) d →
      c ∈ colsOf rs d := by
    intro c hc
    obtain ⟨e, he, hk, hpp⟩ := mem_colsOf.mp hc
    exact mem_colsOf.mpr ⟨e, (List.mem_filter.mp he).1, hk, hpp⟩
  have hcellnil : ∀ c, c ∉ colsOf
      (rs.filter (fun e => !(decide (e.key = d) && e.path.isSome && vleb e.ver dd))) d →
      cellVal (docDts rs d)
        (cellEntries
          (rs.filter (fun e => !(decide (e.key = d) && e.path.isSome && vleb e.ver dd))) d c) =
        none := by
    intro c hc
    rw [cellEntries_eq_nil, cellVal_nil]
    rintro ⟨e, he, hk, hpp⟩
    exact hc (mem_colsOf.mpr ⟨e, he, hk, hpp⟩)
  have hiff : ((docCells
      (rs.filter (fun e => !(decide (e.key = d) && e.path.isSome && vleb e.ver dd))) d).all
        fun q => q.2.isNone) = true ↔
      ((docCells rs d).all fun q => q.2.isNone) = true := by
    rw [List.all_eq_true, List.all_eq_true]
    unfold docCells
    constructor
    · intro hA q hq
      obtain ⟨c, hc, rfl⟩ := List.mem_map.mp hq
      by_cases hcf : c ∈ colsOf
          (rs.filter (fun e => !(decide (e.key = d) && e.path.isSome && vleb e.ver dd))) d
      · have hB := hA _ (List.mem_map.mpr ⟨c, hcf, rfl⟩)
        rw [hdts2, hcell c] at hB
        exact hB
      · have hn := hcellnil c hcf
        rw [hcell c] at hn
        rw [hn]
        rfl
    · intro hA q hq
      obtain ⟨c, hc, rfl⟩ := List.mem_map.mp hq
      have hB := hA _ (List.mem_map.mpr ⟨c, hsubcols c hc, rfl⟩)
      show (cellVal _ _).isNone = true
      rw [hdts2, hcell c]
      exact hB
  have hall : ((docCells
      (rs.filter (fun e => !(decide (e.key = d) && e.path.isSome && vleb e.ver dd))) d).all
        fun q => q.2.isNone) = ((docCells rs d).all fun q => q.2.isNone) := by
    cases hx : (docCells
        (rs.filter (fun e => !(decide (e.key = d) && e.path.isSome && vleb e.ver dd))) d).all
          fun q => q.2.isNone
    · cases hy : (docCells rs d).all fun q => q.2.isNone
      · rfl
      · have := hiff.mpr hy
        rw [hx] at this
        exact this
    · exact (hiff.mp hx).symm
  have hasm : assembleRow schema proj d
      (docCells
        (rs.filter (fun e => !(decide (e.key = d) && e.path.isSome && vleb e.ver dd))) d) =
      assembleRow schema proj d (docCells rs d) := by
    unfold assembleRow
    apply List.map_congr_left
    intro c _
    cases hidx : idxOf c schema.keyIds with
    | some i => simp only [hidx]
    | none =>
      simp only [hidx]
      have hg : cellsGet c
          (docCells
            (rs.filter (fun e => !(decide (e.key = d) && e.path.isSome && vleb e.ver dd))) d) =
          cellsGet c (docCells rs d) := by
        unfold docCells
        by_cases hcf : c ∈ colsOf
            (rs.filter (fun e => !(decide (e.key = d) && e.path.isSome && vleb e.ver dd))) d
        · rw [cellsGet_map_self hcf, cellsGet_map_self (hsubcols c hcf), hdts2, hcell c]
        · rw [cellsGet_map_not_mem hcf]
          by_cases hcr : c ∈ colsOf rs d
          · rw [cellsGet_map_self hcr]
            have hn := hcellnil c hcf
            rw [hcell c] at hn
            exact hn.symm
          · rw [cellsGet_map_not_mem hcr]
      rw [hg]
  have hskip : skipDocB schema proj
      (rs.filter (fun e => !(decide (e.key = d) && e.path.isSome && vleb e.ver dd))) d =
      skipDocB schema proj rs d := by
    unfold skipDocB
    rw [hall, hdts2]
  unfold docRowPure
  rw [hskip, hasm]

theorem docKeysOf_filter_tomb {rs : List VEntry} {d : DocKey} {dd : Version}
    (h0 : (⟨d, none, dd, .tombstone⟩ : VEntry) ∈ rs) :
    docKeysOf
        (rs.filter (fun e => !(decide (e.key = d) && e.path.isSome && vleb e.ver dd))) =
      docKeysOf rs := by
  refine @sorted_ext (List PrimVal) keyLtb (fun _ _ _ h1 h2 => keyLtb_trans h1 h2)
    keyLtb_irrefl _ _ (pairwise_docKeysOf _) (pairwise_docKeysOf _) ?_
  intro a
  rw [mem_docKeysOf, mem_docKeysOf]
  constructor
  · rintro ⟨e, he, rfl⟩
    exact ⟨e, (List.mem_filter.mp he).1, rfl⟩
  · rintro ⟨e, he, rfl⟩
    by_cases hk : e.key = d
    · exact ⟨⟨d, none, dd, .tombstone⟩, List.mem_filter.mpr ⟨h0, by simp⟩, hk.symm⟩
    · exact ⟨e, List.mem_filter.mpr ⟨he, by simp [hk]⟩, rfl⟩

/-- C2: a document-level tombstone at version dd visible at the read time
hides every column write of that document at version at most dd: the rows
the walker produces over the resolved entries are unchanged when all such
writes are removed, while entries at versions above dd (and every other
document) are retained and determine the output exactly as before. -/
theorem doc_tombstone_hides (schema : Schema) (proj : List Nat) (rs : List VEntry)
    (d : DocKey) (dd : Version)
    (h0 : (⟨d, none, dd, .tombstone⟩ : VEntry) ∈ rs)
    (hinj : versionInjective rs) :
    buildRows schema proj rs =
      buildRows schema proj
        (rs.filter (fun e => !(decide (e.key = d) && e.path.isSome && vleb e.ver dd))) := by
  unfold buildRows
  rw [docKeysOf_filter_tomb h0]
  apply List.filterMap_congr
  intro d2 _
  by_cases hd2 : d2 = d
  · subst hd2
    exact (docRowPure_tomb_filter h0 hinj).symm
  · refine (docRowPure_filter_other ?_).symm
    intro e _ hf
    have hkd : e.key = d := by
      cases hx : decide (e.key = d) with
      | true => exact of_decide_eq_true hx
      | false => simp [hx] at hf
    rw [hkd]
    exact fun hdk => hd2 hdk.symm

/-- Witness for C2: the resolved store of DocRowwiseIteratorTestRowDeletes
at read time 2800 with the row1 document tombstone at 2500. -/
theorem doc_tombstone_hides_witness :
    buildRows schemaT projCDE rsC2 =
      buildRows schemaT projCDE
        (rsC2.filter (fun e =>
          !(decide (e.key = dk1) && e.path.isSome && vleb e.ver ⟨2500, 0⟩))) :=
  doc_tombstone_hides schemaT projCDE rsC2 dk1 ⟨2500, 0⟩ (by decide)
    (by unfold versionInjective; decide)

theorem resolveStore_all_regular {txnCtx : Bool} {oracle : Oracle} {R : Nat} :
    ∀ {store : List Entry}, (∀ e ∈ store, e.kind = .regular) →
      resolveStore txnCtx oracle R store =
        .ok ((store.filter (fun e => decide (e.ver.ts ≤ R))).map
          (fun e => (⟨e.key, e.path, e.ver, effPayload R e.ver e.payload e.ttl⟩ : VEntry)))
  | [], _ => rfl
  | e :: es, h => by
    have ih := @resolveStore_all_regular txnCtx oracle R es
      (fun e2 he2 => h e2 (List.mem_cons.mpr (Or.inr he2)))
    have hre : resolveEntry txnCtx oracle R e =
        .ok (if e.ver.ts ≤ R then
          some ⟨e.key, e.path, e.ver, effPayload R e.ver e.payload e.ttl⟩ else none) := by
      unfold resolveEntry
      rw [h e (List.mem_cons_self e es)]
    by_cases hts : e.ver.ts ≤ R
    · rw [show resolveStore txnCtx oracle R (e :: es) =
          (match resolveEntry txnCtx oracle R e with
           | .error er => .error er
           | .ok none => resolveStore txnCtx oracle R es
           | .ok (some v) =>
             match resolveStore txnCtx oracle R es with
             | .error er => .error er
             | .ok vs => .ok (v :: vs)) from rfl]
      rw [hre, if_pos hts, ih]
      rw [List.filter_cons_of_pos (by simpa using hts), List.map_cons]
    · rw [show resolveStore txnCtx oracle R (e :: es) =
          (match resolveEntry txnCtx oracle R e with
           | .error er => .error er
           | .ok none => resolveStore txnCtx oracle R es
           | .ok (some v) =>
             match resolveStore txnCtx oracle R es with
             | .error er => .error er
             | .ok vs => .ok (v :: vs)) from rfl]
      rw [hre, if_neg hts, ih]
      rw [List.filter_cons_of_neg (by simpa using hts)]

theorem docKeysOf_const {d : DocKey} :
    ∀ {rs : List VEntry}, (∀ e ∈ rs, e.key = d) → rs ≠ [] → docKeysOf rs = [d]
  | [], _, hne => absurd rfl hne
  | e :: es, h, _ => by
    rw [docKeysOf_cons, h e (List.mem_cons_self e es)]
    cases es with
    | nil => rfl
    | cons e2 es2 =>
      rw [docKeysOf_const (fun x hx => h x (List.mem_cons.mpr (Or.inr hx)))
        (List.cons_ne_nil e2 es2)]
      show insortBy keyLtb d [d] = [d]
      simp [insortBy, keyLtb_irrefl]

theorem docDts_none {d : DocKey} :
    ∀ {rs : List VEntry}, (∀ e ∈ rs, e.path ≠ none) → docDts rs d = none
  | [], _ => rfl
  | e :: es, h => by
    rw [docDts_cons, if_neg (fun hc => h e (List.mem_cons_self e es) hc.2.1)]
    exact docDts_none (fun x hx => h x (List.mem_cons.mpr (Or.inr hx)))

theorem colsOf_const {d : DocKey} {c : Nat} :
    ∀ {rs : List VEntry}, (∀ e ∈ rs, e.key = d ∧ e.path = some c) → rs ≠ [] →
      colsOf rs d = [c]
  | [], _, hne => absurd rfl hne
  | e :: es, h, _ => by
    obtain ⟨hk, hp⟩ := h e (List.mem_cons_self e es)
    rw [colsOf_cons, hp]
    show (if e.key = d then insortBy natLtb c (colsOf es d) else colsOf es d) = [c]
    rw [if_pos hk]
    cases es with
    | nil => rfl
    | cons e2 es2 =>
      rw [colsOf_const (fun x hx => h x (List.mem_cons.mpr (Or.inr hx)))
        (List.cons_ne_nil e2 es2)]
      show insortBy natLtb c [c] = [c]
      simp [insortBy, natLtb]

theorem latestBy_map {α β : Type} {f1 : α → Version} {f2 : β → Version} {g : α → β}
    (hfg : ∀ a, f2 (g a) = f1 a) :
    ∀ l : List α, latestBy f2 (l.map g) = (latestBy f1 l).map g
  | [] => rfl
  | e :: es => by
    simp only [List.map_cons, latestBy, latestBy_map hfg es]
    cases latestBy f1 es with
    | none => rfl
    | some m =>
      simp only [Option.map_some']
      rw [hfg, hfg]
      by_cases h : vltb (f1 m) (f1 e) = true
      · rw [if_pos h, if_pos h]
        rfl
      · rw [if_neg h, if_neg h]
        rfl

theorem effPayload_of_dead {R : Nat} {e : Entry} (h : deadAt R e = true) :
    effPayload R e.ver e.payload e.ttl = .tombstone := by
  cases hp : e.payload with
  | tombstone => cases e.ttl <;> rfl
  | prim x =>
    cases httl : e.ttl with
    | none => simp [deadAt, hp, httl] at h
    | some dl =>
      simp only [deadAt, hp, httl, decide_eq_true_iff] at h
      show (if e.ver.ts + dl ≤ R then Payload.tombstone else Payload.prim x) = Payload.tombstone
      rw [if_pos h]

theorem effPayload_of_live {R : Nat} {e : Entry} (h : deadAt R e = false) :
    effPayload R e.ver e.payload e.ttl = e.payload ∧ ∃ x, e.payload = .prim x := by
  cases hp : e.payload with
  | tombstone => simp [deadAt, hp] at h
  | prim x =>
    refine ⟨?_, x, rfl⟩
    cases httl : e.ttl with
    | none => rfl
    | some dl =>
      simp only [deadAt, hp, httl, decide_eq_false_iff_not] at h
      show (if e.ver.ts + dl ≤ R then Payload.tombstone else Payload.prim x) = Payload.prim x
      rw [if_neg h]

theorem cellVal_eq_specCellValue {R : Nat} {store : List Entry}
    (hinjs : ∀ e1 ∈ store, ∀ e2 ∈ store, e1.ver = e2.ver → e1 = e2) :
    cellVal none ((store.filter (fun e => decide (e.ver.ts ≤ R))).map
        (fun e => (⟨e.key, e.path, e.ver, effPayload R e.ver e.payload e.ttl⟩ : VEntry))) =
      specCellValue R store := by
  have hfg : ∀ e : Entry,
      ((fun e => (⟨e.key, e.path, e.ver, effPayload R e.ver e.payload e.ttl⟩ : VEntry)) e).ver =
        e.ver := fun _ => rfl
  have hsubv : ∀ x ∈ store.filter (fun e => decide (e.ver.ts ≤ R)), x ∈ store :=
    fun x hx => (List.mem_filter.mp hx).1
  cases hm : latestBy (fun e : Entry => e.ver)
      (store.filter (fun e => decide (e.ver.ts ≤ R))) with
  | none =>
    have hLm : latestBy (fun v : VEntry => v.ver)
        ((store.filter (fun e => decide (e.ver.ts ≤ R))).map
          (fun e => (⟨e.key, e.path, e.ver, effPayload R e.ver e.payload e.ttl⟩ : VEntry))) =
        none := by
      rw [@latestBy_map Entry VEntry (fun e => e.ver) (fun v => v.ver) _ hfg, hm]
      rfl
    rw [cellVal_eq_none hLm]
    have hnil : store.filter (fun e => decide (e.ver.ts ≤ R)) = [] := latestBy_eq_none.mp hm
    simp only [specCellValue, hnil]
    rfl
  | some m =>
    have hmem : m ∈ store.filter (fun e => decide (e.ver.ts ≤ R)) := latestBy_mem hm
    have hmax := latestBy_max hm
    have hLm : latestBy (fun v : VEntry => v.ver)
        ((store.filter (fun e => decide (e.ver.ts ≤ R))).map
          (fun e => (⟨e.key, e.path, e.ver, effPayload R e.ver e.payload e.ttl⟩ : VEntry))) =
        some ⟨m.key, m.path, m.ver, effPayload R m.ver m.payload m.ttl⟩ := by
      rw [@latestBy_map Entry VEntry (fun e => e.ver) (fun v => v.ver) _ hfg, hm]
      rfl
    rw [cellVal_eq_some hLm, if_neg (fun hcon => Bool.noConfusion hcon)]
    by_cases hdead : deadAt R m = true
    · show (match effPayload R m.ver m.payload m.ttl with
          | Payload.tombstone => none
          | Payload.prim x => some x) = specCellValue R store
      rw [effPayload_of_dead hdead]
      have hclean : (store.filter (fun e => decide (e.ver.ts ≤ R))).filter
          (fun e => !deadAt R e &&
            !((store.filter (fun e => decide (e.ver.ts ≤ R))).any
              (fun e2 => deadAt R e2 && vltb e.ver e2.ver))) = [] := by
        rw [List.filter_eq_nil]
        intro e he
        by_cases hde : deadAt R e = true
        · simp [hde]
        · have hde2 : deadAt R e = false := by
            cases hx : deadAt R e
            · rfl
            · exact absurd hx hde
          have hnem : e ≠ m := fun heq => hde (heq ▸ hdead)
          have hnev : e.ver ≠ m.ver :=
            fun hv => hnem (hinjs e (hsubv e he) m (hsubv m hmem) hv)
          have hlt : vltb e.ver m.ver = true := vltb_of_vleb_of_ne (hmax e he) hnev
          have hany : ((store.filter (fun e => decide (e.ver.ts ≤ R))).any
              (fun e2 => deadAt R e2 && vltb e.ver e2.ver)) = true :=
            List.any_eq_true.mpr ⟨m, hmem, by rw [hdead, hlt]; rfl⟩
          simp [hany]
      simp only [specCellValue, hclean]
      rfl
    · have hdead2 : deadAt R m = false := by
        cases hx : deadAt R m
        · rfl
        · exact absurd hx hdead
      obtain ⟨heff, x, hpx⟩ := effPayload_of_live hdead2
      show (match effPayload R m.ver m.payload m.ttl with
          | Payload.tombstone => none
          | Payload.prim x => some x) = specCellValue R store
      rw [heff, hpx]
      have hmc : m ∈ (store.filter (fun e => decide (e.ver.ts ≤ R))).filter
          (fun e => !deadAt R e &&
            !((store.filter (fun e => decide (e.ver.ts ≤ R))).any
              (fun e2 => deadAt R e2 && vltb e.ver e2.ver))) := by
        refine List.mem_filter.mpr ⟨hmem, ?_⟩
        rw [hdead2]
        have hany : ((store.filter (fun e => decide (e.ver.ts ≤ R))).any
            (fun e2 => deadAt R e2 && vltb m.ver e2.ver)) = false := by
          rw [List.any_eq_false]
          intro t ht hband
          have h2 : vltb m.ver t.ver = true := by
            simp only [Bool.and_eq_true] at hband
            exact hband.2
          have h3 : vleb t.ver m.ver = true := hmax t ht
          have := vltb_vleb_trans h2 h3
          rw [vltb_irrefl] at this
          exact Bool.noConfusion this
        rw [hany]
        rfl
      have huni : latestBy (fun e : Entry => e.ver)
          ((store.filter (fun e => decide (e.ver.ts ≤ R))).filter
            (fun e => !deadAt R e &&
              !((store.filter (fun e => decide (e.ver.ts ≤ R))).any
                (fun e2 => deadAt R e2 && vltb e.ver e2.ver)))) = some m := by
        apply latestBy_unique hmc
        intro y hy hym
        have hyv : y ∈ store.filter (fun e => decide (e.ver.ts ≤ R)) :=
          (List.mem_filter.mp hy).1
        have hnev : y.ver ≠ m.ver :=
          fun hv => hym (hinjs y (hsubv y hyv) m (hsubv m hmem) hv)
        exact vltb_of_vleb_of_ne (hmax y hyv) hnev
      simp only [specCellValue, huni]
      rw [hpx]
      rfl

theorem docRowPure_eq_some {schema : Schema} {proj : List Nat} {rs : List VEntry}
    {d : DocKey} {r : Row} (h : docRowPure schema proj rs d = some r) :
    skipDocB schema proj rs d = false ∧
      r = ⟨d, assembleRow schema proj d (docCells rs d)⟩ := by
  unfold docRowPure at h
  by_cases hs : skipDocB schema proj rs d = true
  · rw [if_pos hs] at h
    exact Option.noConfusion h
  · rw [if_neg hs] at h
    simp only [Option.some.injEq] at h
    constructor
    · cases hx : skipDocB schema proj rs d
      · rfl
      · exact absurd hx hs
    · exact h.symm

/-- C9: a document appears among the emitted rows exactly when it has a
resolved entry and is not skipped, where a document is skipped exactly when
all its visible cell values are NULL, it carries a visible document-level
tombstone, and the projection contains a non-key column; moreover every
emitted row carries, for each projected primary-key column, the value
decoded positionally from its document key. -/
theorem row_emission_rule (schema : Schema) (proj : List Nat) (rs : List VEntry)
    (d : DocKey) :
    ((∃ r ∈ buildRows schema proj rs, r.key = d) ↔
      ((∃ e ∈ rs, e.key = d) ∧ skipDocB schema proj rs d = false)) ∧
    (∀ r ∈ buildRows schema proj rs, ∀ c ∈ proj, ∀ i, idxOf c schema.keyIds = some i →
      (c, nthPV r.key i) ∈ r.vals) := by
  constructor
  · constructor
    · rintro ⟨r, hr, hkey⟩
      obtain ⟨d2, hd2, hrow⟩ := mem_buildRows.mp hr
      have hk2 : r.key = d2 := docRowPure_key hrow
      have hdd : d2 = d := by rw [← hk2, hkey]
      subst hdd
      exact ⟨mem_docKeysOf.mp hd2, (docRowPure_eq_some hrow).1⟩
    · rintro ⟨hmem, hskip⟩
      refine ⟨⟨d, assembleRow schema proj d (docCells rs d)⟩, ?_, rfl⟩
      refine mem_buildRows.mpr ⟨d, mem_docKeysOf.mpr hmem, ?_⟩
      unfold docRowPure
      rw [if_neg (by rw [hskip]; exact Bool.noConfusion)]
  · intro r hr c hc i hidx
    obtain ⟨d2, hd2, hrow⟩ := mem_buildRows.mp hr
    obtain ⟨-, hreq⟩ := docRowPure_eq_some hrow
    subst hreq
    simp only [assembleRow]
    refine List.mem_map.mpr ⟨c, hc, ?_⟩
    rw [hidx]

/-- C1: for a store consisting of the versions of one (document key,
column) cell, all regular and with pairwise distinct versions, a scan at
read time R emits exactly one row whose cell holds the claim-side value:
the value of the version with the largest version at most R that is
neither a tombstone nor TTL-expired at R and is not shadowed by a visible
deletion at a larger version, and NULL when no such version exists;
versions with timestamp above R are invisible. -/
theorem version_selection (txnCtx : Bool) (oracle : Oracle) (R : Nat) (schema : Schema)
    (proj : List Nat) (store : List Entry) (d : DocKey) (c : Nat)
    (hall : ∀ e ∈ store, e.key = d ∧ e.path = some c ∧ e.kind = .regular)
    (hinjs : ∀ e1 ∈ store, ∀ e2 ∈ store, e1.ver = e2.ver → e1 = e2)
    (hvis : ∃ e ∈ store, e.ver.ts ≤ R) :
    iterate txnCtx oracle R schema proj store =
      .ok [⟨d, assembleRow schema proj d [(c, specCellValue R store)]⟩] := by
  unfold iterate
  rw [resolveStore_all_regular (fun e he => (hall e he).2.2)]
  simp only [Except.map]
  refine congrArg Except.ok ?_
  have hks : ∀ ve ∈ (store.filter (fun e => decide (e.ver.ts ≤ R))).map
      (fun e => (⟨e.key, e.path, e.ver, effPayload R e.ver e.payload e.ttl⟩ : VEntry)),
      ve.key = d := by
    intro ve hve
    obtain ⟨e, he, rfl⟩ := List.mem_map.mp hve
    exact (hall e (List.mem_filter.mp he).1).1
  have hps : ∀ ve ∈ (store.filter (fun e => decide (e.ver.ts ≤ R))).map
      (fun e => (⟨e.key, e.path, e.ver, effPayload R e.ver e.payload e.ttl⟩ : VEntry)),
      ve.path = some c := by
    intro ve hve
    obtain ⟨e, he, rfl⟩ := List.mem_map.mp hve
    exact (hall e (List.mem_filter.mp he).1).2.1
  have hnemp : (store.filter (fun e => decide (e.ver.ts ≤ R))).map
      (fun e => (⟨e.key, e.path, e.ver, effPayload R e.ver e.payload e.ttl⟩ : VEntry)) ≠ [] := by
    obtain ⟨e, he, hts⟩ := hvis
    intro hnil
    have hmm : (⟨e.key, e.path, e.ver, effPayload R e.ver e.payload e.ttl⟩ : VEntry) ∈
        (store.filter (fun e => decide (e.ver.ts ≤ R))).map
          (fun e => (⟨e.key, e.path, e.ver, effPayload R e.ver e.payload e.ttl⟩ : VEntry)) :=
      List.mem_map.mpr ⟨e, List.mem_filter.mpr ⟨he, by simpa using hts⟩, rfl⟩
    rw [hnil] at hmm
    simp at hmm
  have hdk : docKeysOf ((store.filter (fun e => decide (e.ver.ts ≤ R))).map
      (fun e => (⟨e.key, e.path, e.ver, effPayload R e.ver e.payload e.ttl⟩ : VEntry))) =
      [d] := docKeysOf_const hks hnemp
  have hdts : docDts ((store.filter (fun e => decide (e.ver.ts ≤ R))).map
      (fun e => (⟨e.key, e.path, e.ver, effPayload R e.ver e.payload e.ttl⟩ : VEntry))) d =
      none :=
    docDts_none (fun ve hve hn => by rw [hps ve hve] at hn; exact Option.noConfusion hn)
  have hcols : colsOf ((store.filter (fun e => decide (e.ver.ts ≤ R))).map
      (fun e => (⟨e.key, e.path, e.ver, effPayload R e.ver e.payload e.ttl⟩ : VEntry))) d =
      [c] := colsOf_const (fun ve hve => ⟨hks ve hve, hps ve hve⟩) hnemp
  have hce : cellEntries ((store.filter (fun e => decide (e.ver.ts ≤ R))).map
      (fun e => (⟨e.key, e.path, e.ver, effPayload R e.ver e.payload e.ttl⟩ : VEntry))) d c =
      (store.filter (fun e => decide (e.ver.ts ≤ R))).map
        (fun e => (⟨e.key, e.path, e.ver, effPayload R e.ver e.payload e.ttl⟩ : VEntry)) := by
    unfold cellEntries
    rw [List.filter_eq_self]
    intro ve hve
    rw [hks ve hve, hps ve hve]
    simp
  have hcells : docCells ((store.filter (fun e => decide (e.ver.ts ≤ R))).map
      (fun e => (⟨e.key, e.path, e.ver, effPayload R e.ver e.payload e.ttl⟩ : VEntry))) d =
      [(c, cellVal none ((store.filter (fun e => decide (e.ver.ts ≤ R))).map
        (fun e => (⟨e.key, e.path, e.ver, effPayload R e.ver e.payload e.ttl⟩ : VEntry))))] := by
    unfold docCells
    rw [hcols]
    show [(c, cellVal (docDts _ d) (cellEntries _ d c))] = _
    rw [hdts, hce]
  have hskip : skipDocB schema proj ((store.filter (fun e => decide (e.ver.ts ≤ R))).map
      (fun e => (⟨e.key, e.path, e.ver, effPayload R e.ver e.payload e.ttl⟩ : VEntry))) d =
      false := by
    unfold skipDocB
    rw [hdts]
    simp
  have hrow : docRowPure schema proj ((store.filter (fun e => decide (e.ver.ts ≤ R))).map
      (fun e => (⟨e.key, e.path, e.ver, effPayload R e.ver e.payload e.ttl⟩ : VEntry))) d =
      some ⟨d, assembleRow schema proj d [(c, specCellValue R store)]⟩ := by
    unfold docRowPure
    rw [hskip, hcells, cellVal_eq_specCellValue hinjs]
    rfl
  unfold buildRows
  rw [hdk]
  simp only [List.filterMap_cons, List.filterMap_nil, hrow]

/-- Witness for C1: the single-cell store with a value at 1000, a column
tombstone at 2000 and a value at 2500, read at time 2200: the tombstone is
the latest visible version, so the cell reads NULL. -/
theorem version_selection_witness :
    iterate false (mockOracle []) 2200 schemaT projCDE storeC1 =
      .ok [⟨dk1, assembleRow schemaT projCDE dk1 [(30, specCellValue 2200 storeC1)]⟩] :=
  version_selection false (mockOracle []) 2200 schemaT projCDE storeC1 dk1 30
    (by decide) (by decide) (by decide)

/-- Witness for C9: with the document tombstone of rsC9A, the visible
non-NULL write at column e makes row1 appear; in rsC9B the only column
write is hidden, all cells are NULL and the tombstoned document is
skipped. -/
theorem row_emission_rule_witness :
    (∃ r ∈ buildRows schemaT projCDE rsC9A, r.key = dk1) ∧
      ¬(∃ r ∈ buildRows schemaT projCDE rsC9B, r.key = dk1) := by
  constructor
  · exact (row_emission_rule schemaT projCDE rsC9A dk1).1.mpr
      ⟨⟨vdoc dk1 2500 0, List.mem_cons_self _ _, rfl⟩, by rfl⟩
  · intro h
    obtain ⟨-, hs⟩ := (row_emission_rule schemaT projCDE rsC9B dk1).1.mp h
    have ht : skipDocB schemaT projCDE rsC9B dk1 = true := by rfl
    rw [ht] at hs
    exact Bool.noConfusion hs

end DocDB
